import Mathlib

/-!
Verification development for `nt` (src/nt.py), a command-line daily-notes and
todo manager.  Python strings are embedded as `List Char`; every definition
below is a shallow embedding of the correspondingly named Python function in
`src/nt.py`.  The regular expressions used by the source are embedded as
direct recursive scanners implementing Python's leftmost / greedy matching
semantics for those concrete patterns (each scanner's doc comment names the
pattern it embeds).  Character classes are the ASCII fragments of Python's
`\s`, `\d`, `\w`, which coincide with Python's behaviour on the ASCII note
files the tool reads and writes.
-/

/-- Python strings, embedded as lists of characters. -/
abbrev Str := List Char

/-- Shorthand turning a Lean string literal into the embedded representation. -/
def lit (s : String) : Str := s.data

/-- Python's whitespace class (`str.strip`, regex `\s`), ASCII fragment. -/
def pyIsSpace (c : Char) : Bool :=
  c = ' ' || c = '\t' || c = '\n' || c = '\r' || c = '\x0b' || c = '\x0c'

/-- Regex `\d`, ASCII fragment. -/
def pyIsDigit (c : Char) : Bool := c.isDigit

/-- Regex `\w` (word character), ASCII fragment. -/
def pyIsWord (c : Char) : Bool := c.isAlphanum || c = '_'

/-- Regex class `[\w-]` used by the tag pattern `#([\w-]+)`. -/
def pyIsTagChar (c : Char) : Bool := pyIsWord c || c = '-'

/-- Python `str.lstrip()` (strip leading whitespace). -/
def pyLstrip (s : Str) : Str := s.dropWhile pyIsSpace

/-- Python `str.rstrip()` (strip trailing whitespace). -/
def pyRstrip (s : Str) : Str := (s.reverse.dropWhile pyIsSpace).reverse

/-- Python `str.strip()` (strip whitespace at both ends). -/
def pyStrip (s : Str) : Str := pyLstrip (pyRstrip s)

/-- Python's substring test `needle in hay`. -/
def containsSub (nd : Str) : Str → Bool
  | [] => nd.isEmpty
  | c :: t => nd.isPrefixOf (c :: t) || containsSub nd t

/-- Python string comparison `<` (lexicographic on code points). -/
def pyLt : Str → Str → Bool
  | [], [] => false
  | [], _ :: _ => true
  | _ :: _, [] => false
  | a :: s, b :: t => if a = b then pyLt s t else decide (a < b)

/-- Python string comparison `<=`. -/
def pyLe (a b : Str) : Bool := pyLt a b || a = b

/-- Insert into a list so that elements for which `le` already holds stay in
front; building block of a stable insertion sort (used to model Python's
stable `sorted` / `list.sort`). -/
def insertLe {α : Type} (le : α → α → Bool) (x : α) : List α → List α
  | [] => [x]
  | a :: l => if le x a then x :: a :: l else a :: insertLe le x l

/-- Stable insertion sort modelling Python's stable `sorted` / `list.sort`. -/
def sortLe {α : Type} (le : α → α → Bool) (l : List α) : List α :=
  l.foldr (insertLe le) []

/-- Python `sorted(set(tags))`: the distinct elements listed in ascending
lexicographic order. -/
def pySortedSet (l : List Str) : List Str := sortLe pyLe l.dedup

/-- Matcher for the regex fragment `\d{4}-\d{2}-\d{2}` at the start of the
input; on success returns the ten matched characters and the rest. -/
def matchDate : Str → Option (Str × Str)
  | y1 :: y2 :: y3 :: y4 :: '-' :: m1 :: m2 :: '-' :: d1 :: d2 :: rest =>
    if pyIsDigit y1 && pyIsDigit y2 && pyIsDigit y3 && pyIsDigit y4 &&
       pyIsDigit m1 && pyIsDigit m2 && pyIsDigit d1 && pyIsDigit d2 then
      some ([y1, y2, y3, y4, '-', m1, m2, '-', d1, d2], rest)
    else none
  | _ => none

/-- `matchDate s = some (d, [])`, i.e. `s` is exactly one `YYYY-MM-DD` shaped
string (the shape of every `date.isoformat()` the program produces). -/
def isDateShape (s : Str) : Bool :=
  match matchDate s with
  | some (_, []) => true
  | _ => false

/-- Matcher, at the current position, for `@done\s+(\d{4}-\d{2}-\d{2})`
(the pattern of `re.search(r"@done\s+(?P<date>\d{4}-\d{2}-\d{2})", body)`).
The greedy `\s+` followed by `\d` consumes exactly the whitespace run.
On success returns the captured date and the rest after the match. -/
def doneAt (s : Str) : Option (Str × Str) :=
  if (lit "@done").isPrefixOf s then
    if ((s.drop 5).takeWhile pyIsSpace).isEmpty then none
    else matchDate ((s.drop 5).dropWhile pyIsSpace)
  else none

/-- Same for `@due\s+(\d{4}-\d{2}-\d{2})`. -/
def dueAt (s : Str) : Option (Str × Str) :=
  if (lit "@due").isPrefixOf s then
    if ((s.drop 4).takeWhile pyIsSpace).isEmpty then none
    else matchDate ((s.drop 4).dropWhile pyIsSpace)
  else none

/-- `re.search(r"@done\s+(?P<date>\d{4}-\d{2}-\d{2})", s)`: leftmost match,
returning the captured date. -/
def searchDone : Str → Option Str
  | [] => none
  | c :: t =>
    match doneAt (c :: t) with
    | some (d, _) => some d
    | none => searchDone t

/-- `re.search(r"@due\s+(?P<date>\d{4}-\d{2}-\d{2})", s)`. -/
def searchDue : Str → Option Str
  | [] => none
  | c :: t =>
    match dueAt (c :: t) with
    | some (d, _) => some d
    | none => searchDue t

/-- Matcher, at the current position, for `\s*@done\s+\d{4}-\d{2}-\d{2}`
(the pattern of `re.sub(r"\s*@done\s+\d{4}-\d{2}-\d{2}", "", s)`).  The
greedy `\s*` followed by the literal `@` consumes exactly the whitespace run.
Returns the rest after the match. -/
def subDoneAt (s : Str) : Option Str :=
  (doneAt (s.dropWhile pyIsSpace)).map (·.2)

/-- Same for `\s*@due\s+\d{4}-\d{2}-\d{2}`. -/
def subDueAt (s : Str) : Option Str :=
  (dueAt (s.dropWhile pyIsSpace)).map (·.2)

theorem lenDropWhile_le (p : Char → Bool) (l : List Char) :
    (l.dropWhile p).length ≤ l.length :=
  (List.dropWhile_suffix p).length_le

theorem lenDropWhile_lt {p : Char → Bool} {l : List Char}
    (h : ¬(l.takeWhile p).isEmpty = true) :
    (l.dropWhile p).length < l.length := by
  rcases l with _ | ⟨c, t⟩
  · simp at h
  · rw [List.takeWhile_cons] at h
    rw [List.dropWhile_cons]
    cases hc : p c with
    | false => simp [hc] at h
    | true =>
      simp only [hc, if_true]
      have := lenDropWhile_le p t
      simp; omega

theorem matchDate_length {s d r : Str} (h : matchDate s = some (d, r)) :
    r.length + 10 = s.length := by
  unfold matchDate at h
  split at h
  · split at h
    · cases h; simp
    · exact absurd h (by simp)
  · exact absurd h (by simp)

theorem doneAt_length {s d r : Str} (h : doneAt s = some (d, r)) :
    r.length < s.length := by
  unfold doneAt at h
  split at h
  · split at h
    · exact absurd h (by simp)
    · have h10 := matchDate_length h
      rename_i hpfx hws
      have h5 : 5 ≤ s.length := by
        have := List.IsPrefix.length_le (List.isPrefixOf_iff_prefix.mp hpfx)
        simpa [lit] using this
      have hlt : ((s.drop 5).dropWhile pyIsSpace).length < (s.drop 5).length :=
        lenDropWhile_lt hws
      have h3 : (s.drop 5).length + 5 = s.length := by
        simp [List.length_drop]; omega
      omega
  · exact absurd h (by simp)

theorem dueAt_length {s d r : Str} (h : dueAt s = some (d, r)) :
    r.length < s.length := by
  unfold dueAt at h
  split at h
  · split at h
    · exact absurd h (by simp)
    · have h10 := matchDate_length h
      rename_i hpfx hws
      have h4 : 4 ≤ s.length := by
        have := List.IsPrefix.length_le (List.isPrefixOf_iff_prefix.mp hpfx)
        simpa [lit] using this
      have hlt : ((s.drop 4).dropWhile pyIsSpace).length < (s.drop 4).length :=
        lenDropWhile_lt hws
      have h3 : (s.drop 4).length + 4 = s.length := by
        simp [List.length_drop]; omega
      omega
  · exact absurd h (by simp)

theorem subDoneAt_length {s r : Str} (h : subDoneAt s = some r) :
    r.length < s.length := by
  unfold subDoneAt at h
  rcases hm : doneAt (s.dropWhile pyIsSpace) with _ | ⟨d, r'⟩
  · rw [hm] at h; simp at h
  · rw [hm] at h
    simp at h
    subst h
    have h1 := doneAt_length hm
    have h2 := lenDropWhile_le pyIsSpace s
    omega

theorem subDueAt_length {s r : Str} (h : subDueAt s = some r) :
    r.length < s.length := by
  unfold subDueAt at h
  rcases hm : dueAt (s.dropWhile pyIsSpace) with _ | ⟨d, r'⟩
  · rw [hm] at h; simp at h
  · rw [hm] at h
    simp at h
    subst h
    have h1 := dueAt_length hm
    have h2 := lenDropWhile_le pyIsSpace s
    omega

/-- Driver of `subDone` below, structurally recursive on a fuel bound (the
fuel is always at least the string length, so it never runs out; this keeps
the definition kernel-computable). -/
def subDoneGo : Nat → Str → Str
  | 0, s => s
  | _ + 1, [] => []
  | fuel + 1, c :: t =>
    match subDoneAt (c :: t) with
    | some r => subDoneGo fuel r
    | none => c :: subDoneGo fuel t

/-- `re.sub(r"\s*@done\s+\d{4}-\d{2}-\d{2}", "", s)`: delete every leftmost
non-overlapping match, continuing after each match. -/
def subDone (s : Str) : Str := subDoneGo s.length s

/-- Driver of `subDue` below (same fuel scheme as `subDoneGo`). -/
def subDueGo : Nat → Str → Str
  | 0, s => s
  | _ + 1, [] => []
  | fuel + 1, c :: t =>
    match subDueAt (c :: t) with
    | some r => subDueGo fuel r
    | none => c :: subDueGo fuel t

/-- `re.sub(r"\s*@due\s+\d{4}-\d{2}-\d{2}", "", s)`. -/
def subDue (s : Str) : Str := subDueGo s.length s

/-- Matcher, at the current position, for `#([\w-]+)` (pattern of
`re.findall(r"#([\w-]+)", body)` / the corresponding `re.sub`); returns the
captured group and the rest after the match. -/
def tagAt : Str → Option (Str × Str)
  | '#' :: rest =>
    if (rest.takeWhile pyIsTagChar).isEmpty then none
    else some (rest.takeWhile pyIsTagChar, rest.dropWhile pyIsTagChar)
  | _ => none

theorem tagAt_length {s run r : Str} (h : tagAt s = some (run, r)) :
    r.length < s.length := by
  unfold tagAt at h
  split at h
  · rename_i rest
    split at h
    · exact absurd h (by simp)
    · simp at h
      rename_i hne
      obtain ⟨h1, h2⟩ := h
      subst h2
      have h2 := lenDropWhile_le pyIsTagChar rest
      simp; omega
  · exact absurd h (by simp)

/-- Driver of `findTags` below (same fuel scheme as `subDoneGo`). -/
def findTagsGo : Nat → Str → List Str
  | 0, _ => []
  | _ + 1, [] => []
  | fuel + 1, c :: t =>
    match tagAt (c :: t) with
    | some (run, r) => run :: findTagsGo fuel r
    | none => findTagsGo fuel t

/-- `re.findall(r"#([\w-]+)", s)`: all captured groups of leftmost
non-overlapping matches, left to right. -/
def findTags (s : Str) : List Str := findTagsGo s.length s

/-- Driver of `subTags` below (same fuel scheme as `subDoneGo`). -/
def subTagsGo : Nat → Str → Str
  | 0, s => s
  | _ + 1, [] => []
  | fuel + 1, c :: t =>
    match tagAt (c :: t) with
    | some (_, r) => subTagsGo fuel r
    | none => c :: subTagsGo fuel t

/-- `re.sub(r"#([\w-]+)", "", s)`. -/
def subTags (s : Str) : Str := subTagsGo s.length s

/-- The fuel-indexed drivers do not depend on the exact fuel, provided it is
at least the string length. -/
theorem subDoneGo_fuel :
    ∀ (f1 f2 : Nat) (s : Str), s.length ≤ f1 → s.length ≤ f2 →
      subDoneGo f1 s = subDoneGo f2 s := by
  intro f1
  induction f1 using Nat.strong_induction_on with
  | _ f1 ih =>
    intro f2 s h1 h2
    match f1, f2, s with
    | 0, 0, s => rfl
    | 0, _ + 1, s =>
      have : s = [] := List.length_eq_zero.mp (Nat.le_zero.mp h1)
      subst this; rfl
    | _ + 1, 0, s =>
      have : s = [] := List.length_eq_zero.mp (Nat.le_zero.mp h2)
      subst this; rfl
    | _ + 1, _ + 1, [] => rfl
    | g1 + 1, g2 + 1, c :: t =>
      simp only [subDoneGo]
      rcases hm : subDoneAt (c :: t) with _ | r
      · have ht : t.length ≤ g1 := by simp at h1; omega
        have ht2 : t.length ≤ g2 := by simp at h2; omega
        exact congrArg (c :: ·) (ih g1 (by omega) g2 t ht ht2)
      · have hr := subDoneAt_length hm
        have hr1 : r.length ≤ g1 := by simp at h1 hr; omega
        have hr2 : r.length ≤ g2 := by simp at h2 hr; omega
        exact ih g1 (by omega) g2 r hr1 hr2

theorem subDueGo_fuel :
    ∀ (f1 f2 : Nat) (s : Str), s.length ≤ f1 → s.length ≤ f2 →
      subDueGo f1 s = subDueGo f2 s := by
  intro f1
  induction f1 using Nat.strong_induction_on with
  | _ f1 ih =>
    intro f2 s h1 h2
    match f1, f2, s with
    | 0, 0, s => rfl
    | 0, _ + 1, s =>
      have : s = [] := List.length_eq_zero.mp (Nat.le_zero.mp h1)
      subst this; rfl
    | _ + 1, 0, s =>
      have : s = [] := List.length_eq_zero.mp (Nat.le_zero.mp h2)
      subst this; rfl
    | _ + 1, _ + 1, [] => rfl
    | g1 + 1, g2 + 1, c :: t =>
      simp only [subDueGo]
      rcases hm : subDueAt (c :: t) with _ | r
      · have ht : t.length ≤ g1 := by simp at h1; omega
        have ht2 : t.length ≤ g2 := by simp at h2; omega
        exact congrArg (c :: ·) (ih g1 (by omega) g2 t ht ht2)
      · have hr := subDueAt_length hm
        have hr1 : r.length ≤ g1 := by simp at h1 hr; omega
        have hr2 : r.length ≤ g2 := by simp at h2 hr; omega
        exact ih g1 (by omega) g2 r hr1 hr2

theorem findTagsGo_fuel :
    ∀ (f1 f2 : Nat) (s : Str), s.length ≤ f1 → s.length ≤ f2 →
      findTagsGo f1 s = findTagsGo f2 s := by
  intro f1
  induction f1 using Nat.strong_induction_on with
  | _ f1 ih =>
    intro f2 s h1 h2
    match f1, f2, s with
    | 0, 0, s => rfl
    | 0, _ + 1, s =>
      have : s = [] := List.length_eq_zero.mp (Nat.le_zero.mp h1)
      subst this; rfl
    | _ + 1, 0, s =>
      have : s = [] := List.length_eq_zero.mp (Nat.le_zero.mp h2)
      subst this; rfl
    | _ + 1, _ + 1, [] => rfl
    | g1 + 1, g2 + 1, c :: t =>
      simp only [findTagsGo]
      rcases hm : tagAt (c :: t) with _ | ⟨run, r⟩
      · have ht : t.length ≤ g1 := by simp at h1; omega
        have ht2 : t.length ≤ g2 := by simp at h2; omega
        exact ih g1 (by omega) g2 t ht ht2
      · have hr := tagAt_length hm
        have hr1 : r.length ≤ g1 := by simp at h1 hr; omega
        have hr2 : r.length ≤ g2 := by simp at h2 hr; omega
        exact congrArg (run :: ·) (ih g1 (by omega) g2 r hr1 hr2)

theorem subTagsGo_fuel :
    ∀ (f1 f2 : Nat) (s : Str), s.length ≤ f1 → s.length ≤ f2 →
      subTagsGo f1 s = subTagsGo f2 s := by
  intro f1
  induction f1 using Nat.strong_induction_on with
  | _ f1 ih =>
    intro f2 s h1 h2
    match f1, f2, s with
    | 0, 0, s => rfl
    | 0, _ + 1, s =>
      have : s = [] := List.length_eq_zero.mp (Nat.le_zero.mp h1)
      subst this; rfl
    | _ + 1, 0, s =>
      have : s = [] := List.length_eq_zero.mp (Nat.le_zero.mp h2)
      subst this; rfl
    | _ + 1, _ + 1, [] => rfl
    | g1 + 1, g2 + 1, c :: t =>
      simp only [subTagsGo]
      rcases hm : tagAt (c :: t) with _ | ⟨run, r⟩
      · have ht : t.length ≤ g1 := by simp at h1; omega
        have ht2 : t.length ≤ g2 := by simp at h2; omega
        exact congrArg (c :: ·) (ih g1 (by omega) g2 t ht ht2)
      · have hr := tagAt_length hm
        have hr1 : r.length ≤ g1 := by simp at h1 hr; omega
        have hr2 : r.length ≤ g2 := by simp at h2 hr; omega
        exact ih g1 (by omega) g2 r hr1 hr2

/-- Canonical unfolding of `subDone` on a cons cell. -/
theorem subDone_cons (c : Char) (t : Str) :
    subDone (c :: t) =
      match subDoneAt (c :: t) with
      | some r => subDone r
      | none => c :: subDone t := by
  show subDoneGo (c :: t).length (c :: t) = _
  rw [List.length_cons, subDoneGo]
  rcases hm : subDoneAt (c :: t) with _ | r
  · rfl
  · have hr := subDoneAt_length hm
    simp only []
    exact subDoneGo_fuel t.length r.length r (by simp at hr; omega) (le_refl _)

/-- Canonical unfolding of `subDue` on a cons cell. -/
theorem subDue_cons (c : Char) (t : Str) :
    subDue (c :: t) =
      match subDueAt (c :: t) with
      | some r => subDue r
      | none => c :: subDue t := by
  show subDueGo (c :: t).length (c :: t) = _
  rw [List.length_cons, subDueGo]
  rcases hm : subDueAt (c :: t) with _ | r
  · rfl
  · have hr := subDueAt_length hm
    simp only []
    exact subDueGo_fuel t.length r.length r (by simp at hr; omega) (le_refl _)

/-- Canonical unfolding of `findTags` on a cons cell. -/
theorem findTags_cons (c : Char) (t : Str) :
    findTags (c :: t) =
      match tagAt (c :: t) with
      | some (run, r) => run :: findTags r
      | none => findTags t := by
  show findTagsGo (c :: t).length (c :: t) = _
  rw [List.length_cons, findTagsGo]
  rcases hm : tagAt (c :: t) with _ | ⟨run, r⟩
  · rfl
  · have hr := tagAt_length hm
    simp only []
    exact congrArg (run :: ·)
      (findTagsGo_fuel t.length r.length r (by simp at hr; omega) (le_refl _))

/-- Canonical unfolding of `subTags` on a cons cell. -/
theorem subTags_cons (c : Char) (t : Str) :
    subTags (c :: t) =
      match tagAt (c :: t) with
      | some (run, r) => subTags r
      | none => c :: subTags t := by
  show subTagsGo (c :: t).length (c :: t) = _
  rw [List.length_cons, subTagsGo]
  rcases hm : tagAt (c :: t) with _ | ⟨run, r⟩
  · rfl
  · have hr := tagAt_length hm
    simp only []
    exact subTagsGo_fuel t.length r.length r (by simp at hr; omega) (le_refl _)

/-- Last `/`-separated component of a path (`Path.name`). -/
def lastComp (p : Str) : Str :=
  ((p.splitOn '/').getLastD p)

/-- `pathlib.Path(p).stem`: the final component with its last suffix removed
(a suffix exists when a `.` occurs past the first character of the name). -/
def pathStem (p : Str) : Str :=
  if ((lastComp p).drop 1).contains '.' then
    (((lastComp p).reverse.dropWhile (· ≠ '.')).drop 1).reverse
  else lastComp p

/-- Days in a month of the (proleptic Gregorian) calendar, as used by
`datetime.date` validity checking. -/
def daysInMonth (y m : Nat) : Nat :=
  if m = 2 then
    if y % 4 = 0 && (y % 100 ≠ 0 || y % 400 = 0) then 29 else 28
  else if m = 4 || m = 6 || m = 9 || m = 11 then 30
  else 31

/-- Numeric value of a digit run. -/
def digitsToNat : Str → Nat
  | [] => 0
  | c :: t => digitsToNat t + (c.toNat - 48) * 10 ^ t.length

/-- `datetime.strptime(stem, "%d-%m-%Y").date()` wrapped in the
`try/except ValueError` of `NTApp.date_from_note_path`: `%d` takes one or two
digits valued 1..31, `%m` one or two digits valued 1..12, `%Y` exactly four
digits, the whole string must be consumed, and the resulting calendar date
must be valid.  Returns `(year, month, day)`. -/
def dateFromStem (stem : Str) : Option (Nat × Nat × Nat) :=
  match stem.splitOn '-' with
  | [ds, ms, ys] =>
    if ds.all pyIsDigit && ms.all pyIsDigit && ys.all pyIsDigit &&
       decide (1 ≤ ds.length) && decide (ds.length ≤ 2) &&
       decide (1 ≤ ms.length) && decide (ms.length ≤ 2) &&
       decide (ys.length = 4) then
      if 1 ≤ digitsToNat ds && digitsToNat ds ≤ 31 &&
         1 ≤ digitsToNat ms && digitsToNat ms ≤ 12 &&
         1 ≤ digitsToNat ys &&
         digitsToNat ds ≤ daysInMonth (digitsToNat ys) (digitsToNat ms) then
        some (digitsToNat ys, digitsToNat ms, digitsToNat ds)
      else none
    else none
  | _ => none

/-- Decimal digits of a natural number, most significant first. -/
def natDigits (n : Nat) : Str := Nat.toDigits 10 n

/-- Zero-padded decimal rendering, as in Python's `f"{n:0wd}"`. -/
def padNum (w n : Nat) : Str :=
  List.replicate (w - (natDigits n).length) '0' ++ natDigits n

/-- `date(y, m, d).isoformat()`: `YYYY-MM-DD`. -/
def isoFormat : Nat × Nat × Nat → Str
  | (y, m, d) => padNum 4 y ++ ['-'] ++ padNum 2 m ++ ['-'] ++ padNum 2 d

/-- The `TodoEntry` dataclass of `src/nt.py` (all string fields embedded as
`Str`; `status` keeps the Python string values `"open"` / `"done"`). -/
structure TodoEntry where
  text : Str
  tags : List Str
  created : Str
  file : Str
  lineNo : Nat
  status : Str
  due : Option Str
  completed : Option Str
deriving DecidableEq, Repr

/-- The `body` variable of `parse_todo_line` after the `@done` annotation
step (lines 74-78): the stripped body, with the `@done` annotation stripped
again when the search found one. -/
def bodyAfterDone (rest : Str) : Str :=
  if (searchDone (pyStrip rest)).isSome then pyStrip (subDone (pyStrip rest))
  else pyStrip rest

/-- The `body` variable after the `@due` annotation step (lines 80-83). -/
def parsedBody (rest : Str) : Str :=
  if (searchDue (bodyAfterDone rest)).isSome then
    pyStrip (subDue (bodyAfterDone rest))
  else bodyAfterDone rest

/-- The `created` field computation of `parse_todo_line` (lines 88-89):
the note file's date when its stem parses, today's date otherwise. -/
def createdOf (today : Str) (filePath : Str) : Str :=
  match dateFromStem (pathStem filePath) with
  | some ymd => isoFormat ymd
  | none => today

/-- `NTApp.parse_todo_line` (src/nt.py lines 68-102).  The anchored regex
`^- \[( |x)\] (?P<body>.+)$` is embedded as the explicit six-character
checkbox shape followed by a nonempty body; the `'\n' ∉ rest` guard reflects
that `.` does not match a newline (scanner input lines are newline-free).
`today` stands for `date.today().isoformat()`. -/
def parseTodoLine (today : Str) (filePath : Str) (lineNo : Nat) (line : Str) :
    Option TodoEntry :=
  match line with
  | '-' :: ' ' :: '[' :: c :: ']' :: ' ' :: rest =>
    if (c = ' ' || c = 'x') && !rest.isEmpty && !rest.contains '\n' then
      some { text := pyStrip (subTags (parsedBody rest))
             tags := pySortedSet (findTags (parsedBody rest))
             created := createdOf today filePath
             file := filePath
             lineNo := lineNo
             status := if c = 'x' then lit "done" else lit "open"
             due := searchDue (bodyAfterDone rest)
             completed := searchDone (pyStrip rest) }
    else none
  | _ => none

example :
    parseTodoLine (lit "2099-12-31") (lit "15-03-2024.md") 1
      (lit "- [ ] buy milk #errand @due 2024-03-20") =
    some { text := lit "buy milk", tags := [lit "errand"],
           created := lit "2024-03-15", file := lit "15-03-2024.md",
           lineNo := 1, status := lit "open",
           due := some (lit "2024-03-20"), completed := none } := by decide

example :
    parseTodoLine (lit "2099-12-31") (lit "x.md") 3 (lit "- [x] ship it") =
    some { text := lit "ship it", tags := [], created := lit "2099-12-31",
           file := lit "x.md", lineNo := 3, status := lit "done",
           due := none, completed := none } := by decide

/-! ## Corpus scanner and status mutator -/

/-- The comparison `(t.created, t.file.as_posix(), t.line_no) <=` used as sort
key in `NTApp.load_todos` (line 142) and in the agenda per-group sort
(lines 235-242): lexicographic on the tuple, with Python string comparison on
the two string components. -/
def keyLe (a b : TodoEntry) : Bool :=
  pyLt a.created b.created ||
    (a.created = b.created && (pyLt a.file b.file ||
      (a.file = b.file && decide (a.lineNo ≤ b.lineNo))))

/-- Parse every line of one file, numbering lines from `i` (line numbers are
1-based at the top call, matching ripgrep's `--line-number` output consumed
by `NTApp.todo_matches_from_rg`). -/
def scanLines (today fp : Str) : Nat → List Str → List TodoEntry
  | _, [] => []
  | i, l :: ls =>
    match parseTodoLine today fp i l with
    | some t => t :: scanLines today fp (i + 1) ls
    | none => scanLines today fp (i + 1) ls

/-- The filesystem under the notes root: an association list from file path
to the file's list of lines (files are written by the tool as the lines
joined with newlines plus one trailing newline, so the line list determines
the content). -/
abbrev FsT := List (Str × List Str)

/-- `NTApp.todo_matches_from_rg` (lines 110-138): every checkbox-shaped line
of every file under the notes root, parsed, in file order and line order (the
ripgrep subprocess is modelled by scanning the modelled filesystem directly;
ripgrep reports exactly the lines matching `^- \[( |x)\] `, and
`parse_todo_line` returns `None` on all others, so scanning every line is
equivalent). -/
def scanAll (today : Str) (fs : FsT) : List TodoEntry :=
  (fs.map (fun e => scanLines today e.1 1 e.2)).flatten

/-- `NTApp.load_todos` (lines 140-143): scan, then stable-sort by
`(created, file, line_no)`. -/
def loadTodos (today : Str) (fs : FsT) : List TodoEntry :=
  sortLe keyLe (scanAll today fs)

/-- Read a file's lines (`Path.read_text().splitlines()`). -/
def fsRead : FsT → Str → Option (List Str)
  | [], _ => none
  | (q, ls) :: t, p => if q = p then some ls else fsRead t p

/-- Overwrite a file's lines (`Path.write_text`); only used on paths already
present in the filesystem (the provenance file of a scanned record). -/
def fsWrite : FsT → Str → List Str → FsT
  | [], _, _ => []
  | (q, m) :: t, p, ls => if q = p then (q, ls) :: t else (q, m) :: fsWrite t p ls

/-- `re.sub(r"^- \[( |x)\] ", repl, original, count=1)`: the pattern is
anchored, so the single replacement happens at the start or not at all. -/
def subCheckbox (repl : Str) (s : Str) : Str :=
  match s with
  | '-' :: ' ' :: '[' :: c :: ']' :: ' ' :: rest =>
    if c = ' ' || c = 'x' then repl ++ rest else s
  | _ => s

/-- Whether a line matches the checkbox pattern `^- \[( |x)\] ` (used to
state what the mutator does and does not re-validate). -/
def isCheckboxLine (s : Str) : Bool :=
  match s with
  | '-' :: ' ' :: '[' :: c :: ']' :: ' ' :: _ => c = ' ' || c = 'x'
  | _ => false

/-- The `status == "done"` branch of `NTApp.update_todo_status`
(lines 180-184): force the marker to `- [x] `, and append
`" @done <today>"` after right-stripping unless the substring `@done`
already occurs in the line. -/
def markDoneLine (today orig : Str) : Str :=
  if containsSub (lit "@done") (subCheckbox (lit "- [x] ") orig) then
    subCheckbox (lit "- [x] ") orig
  else
    pyRstrip (subCheckbox (lit "- [x] ") orig) ++ lit " @done " ++ today

/-- The `else` (reopen) branch of `NTApp.update_todo_status`
(lines 186-187): force the marker to `- [ ] `, strip all
`\s*@done\s+\d{4}-\d{2}-\d{2}` annotations, right-strip. -/
def reopenLine (orig : Str) : Str :=
  pyRstrip (subDone (subCheckbox (lit "- [ ] ") orig))

/-- Lines 174-191 of `NTApp.update_todo_status`: re-read file lines, index
the recorded (1-based) line number (`IndexError` on a shorter file raises
the "could not be updated (line missing)" `SystemExit`, modelled as `none`),
transform that line only, and return the new line list together with the
`completed_date` value.  Callers always pass `1 ≤ n` (scanner line numbers
start at 1), so Python's negative-index wrap-around is not modelled. -/
def updateFileLines (today : Str) (lines : List Str) (n : Nat) (status : Str) :
    Option (List Str × Option Str) :=
  match lines[n - 1]? with
  | none => none
  | some original =>
    if status = lit "done" then
      some (lines.set (n - 1) (markDoneLine today original), some today)
    else
      some (lines.set (n - 1) (reopenLine original), none)

/-- Caller-visible outcome of `NTApp.update_todo_status`: the `SystemExit`
"todo #i does not exist", the "already" no-op message, the `SystemExit`
"could not be updated (line missing)", or the success message carrying the
updated record. -/
inductive UpdRes where
  | notFound (i : Nat)
  | noChange (i : Nat) (status : Str)
  | conflict (i : Nat)
  | changed (i : Nat) (t : TodoEntry)
deriving DecidableEq, Repr

/-- `NTApp.update_todo_status` (lines 165-195) over the modelled filesystem:
recompute the corpus, bounds-check the ordinal, short-circuit when the
status already matches, otherwise rewrite the single provenance line and
update the in-memory record's `status` and `completed` fields. -/
def updateTodoStatus (today : Str) (fs : FsT) (i : Nat) (status : Str) :
    FsT × UpdRes :=
  if h : 1 ≤ i ∧ i ≤ (loadTodos today fs).length then
    match (loadTodos today fs)[i - 1]? with
    | none => (fs, UpdRes.notFound i)
    | some t =>
      if t.status = status then (fs, UpdRes.noChange i status)
      else
        match fsRead fs t.file with
        | none => (fs, UpdRes.conflict i)
        | some ls =>
          match updateFileLines today ls t.lineNo status with
          | none => (fs, UpdRes.conflict i)
          | some (ls2, cd) =>
            (fsWrite fs t.file ls2,
             UpdRes.changed i { t with status := status, completed := cd })
  else (fs, UpdRes.notFound i)

/-! ## Presentation: list and agenda -/

/-- Python's `enumerate(l, start=s)`. -/
def enumFrom {α : Type} (s : Nat) : List α → List (Nat × α)
  | [] => []
  | x :: l => (s, x) :: enumFrom (s + 1) l

/-- `NTApp.list_todos` (lines 197-204): optional status filter, then
1-based enumeration of what remains. -/
def listViewPairs (todos : List TodoEntry) (statusFilter : Str) :
    List (Nat × TodoEntry) :=
  enumFrom 1
    (if statusFilter ≠ lit "all" then
       todos.filter (fun t => t.status = statusFilter)
     else todos)

/-- The agenda tag filter (lines 221-222): `if tags and not
set(tags).issubset(set(todo.tags)): continue`. -/
def tagsFilterOk (tags : List Str) (t : TodoEntry) : Bool :=
  tags.isEmpty || tags.all (fun x => x ∈ t.tags)

/-- Lines 217-223 of `NTApp.agenda`: enumerate the full corpus from 1
**before** filtering, then keep open todos passing the tag filter, with
their original indices. -/
def agendaSelected (todos : List TodoEntry) (tags : List Str) :
    List (Nat × TodoEntry) :=
  (enumFrom 1 todos).filter
    (fun p => p.2.status = lit "open" && tagsFilterOk tags p.2)

/-- `todo.due or todo.created` (line 230), including Python's falsy check on
an empty string. -/
def agendaKey (t : TodoEntry) : Str :=
  match t.due with
  | some d => if d.isEmpty then t.created else d
  | none => t.created

/-- Lines 228-242 of `NTApp.agenda`: bucket the selected `(index, todo)`
pairs by date key; iterate keys in sorted order; inside each bucket sort by
the canonical `(created, file, line_no)` key (Python's stable sort of the
insertion-ordered bucket list). -/
def agendaGroups (todos : List TodoEntry) (tags : List Str) :
    List (Str × List (Nat × TodoEntry)) :=
  (pySortedSet ((agendaSelected todos tags).map (fun p => agendaKey p.2))).map
    (fun k =>
      (k, sortLe (fun p q => keyLe p.2 q.2)
        ((agendaSelected todos tags).filter (fun p => agendaKey p.2 = k))))

/-! ## Section-append writer -/

/-- Python `text.rstrip("\n")`. -/
def pyRstripNl (s : Str) : Str := (s.reverse.dropWhile (· = '\n')).reverse

/-- Python `text.split("\n")`. -/
def pySplitNl : Str → List Str
  | [] => [[]]
  | c :: t =>
    if c = '\n' then [] :: pySplitNl t
    else
      match pySplitNl t with
      | p :: ps => (c :: p) :: ps
      | [] => [[c]]

/-- Python `"\n".join(lines)`. -/
def joinNl : List Str → Str
  | [] => []
  | [x] => x
  | x :: y :: ys => x ++ '\n' :: joinNl (y :: ys)

/-- `note_path.read_text().rstrip("\n").split("\n")` (line 269-270). -/
def readLines (content : Str) : List Str := pySplitNl (pyRstripNl content)

/-- `line.startswith("## ")` (line 276). -/
def startsHH (l : Str) : Bool :=
  match l with
  | '#' :: '#' :: ' ' :: _ => true
  | _ => false

/-- Python `list.index` (first occurrence; the heading is present whenever
this is evaluated). -/
def idxOfL (x : Str) : List Str → Nat
  | [] => 0
  | a :: t => if a = x then 0 else idxOfL x t + 1

/-- Offset of the first element starting with `## `, else the length (the
`for i in range(...)` scan of lines 275-278 over the tail). -/
def findHH : List Str → Nat
  | [] => 0
  | a :: t => if startsHH a then 0 else findHH t + 1

/-- Python `list.insert(n, x)` (clamps at the end for `n ≥ len`). -/
def insAt (n : Nat) (x : Str) (l : List Str) : List Str :=
  l.take n ++ x :: l.drop n

/-- The `insert_at` value of `NTApp.append_to_section` (lines 274-278): one
past the (first) heading position, plus the scan for the next `## ` line. -/
def insPt (lines : List Str) (heading : Str) : Nat :=
  idxOfL heading lines + 1 + findHH (lines.drop (idxOfL heading lines + 1))

/-- Lines 279-282 of `NTApp.append_to_section`: insert a separating blank
line when the element directly before the insertion point is non-blank, then
insert the new line. -/
def appendAt (lines : List Str) (heading line : Str) : List Str :=
  if decide (idxOfL heading lines + 1 < insPt lines heading) &&
     !(pyStrip (lines.getD (insPt lines heading - 1) [])).isEmpty then
    insAt (insPt lines heading + 1) line (insAt (insPt lines heading) [] lines)
  else
    insAt (insPt lines heading) line lines

/-- The list-manipulation core of `NTApp.append_to_section` (lines 271-282),
acting on the already-split line list: ensure the heading exists (appending
`["", heading]` when missing, lines 271-272), then insert at the end of the
heading's section. -/
def appendLines (lines0 : List Str) (heading line : Str) : List Str :=
  appendAt (if heading ∈ lines0 then lines0 else lines0 ++ [[], heading])
    heading line

/-- `NTApp.append_to_section` (lines 268-283): read and split the content,
manipulate the line list, write it back joined with a single trailing
newline. -/
def appendToSection (content : Str) (heading line : Str) : Str :=
  joinNl (appendLines (readLines content) heading line) ++ ['\n']

/-- The initial content written by `NTApp.ensure_note_file` (lines 56-65):
`"\n".join(header)` for the six header lines (no extra trailing newline
beyond the join). -/
def ensureNoteHeader (dateDDMMYYYY : Str) : Str :=
  joinNl [lit "# " ++ dateDDMMYYYY, [], lit "## Todos", [], lit "## Notes", []]

/-! ## Directory side effects of constructing the application -/

/-- The set of directories existing on disk, as a list of paths. -/
abbrev DirSt := List Str

/-- `Path.mkdir(parents=True, exist_ok=True)` on the notes directory,
restricted to the two directories the model tracks. -/
def mkdirP (p : Str) (st : DirSt) : DirSt := if p ∈ st then st else p :: st

/-- The two paths held by an `NTApp` instance. -/
structure AppCtx where
  baseDir : Str
  notesDir : Str
deriving DecidableEq, Repr

/-- `NTApp.__init__` (lines 42-45): record the base and notes directories and
create them on disk (`self.notes_dir.mkdir(parents=True, exist_ok=True)`
creates the missing parents, hence also the base directory). -/
def appInit (base : Str) (st : DirSt) : AppCtx × DirSt :=
  (⟨base, base ++ lit "/notes"⟩,
   mkdirP (base ++ lit "/notes") (mkdirP base st))

/-- The `if not self.notes_dir.exists(): return []` guard opening
`NTApp.todo_matches_from_rg` (lines 111-112), with the ripgrep scan of an
existing directory abstracted by `found`. -/
def todoMatchesGuard (st : DirSt) (notesDir : Str) (found : List TodoEntry) :
    List TodoEntry :=
  if notesDir ∈ st then found else []

/-- `main` (line 462) constructs `NTApp()` before dispatching any command;
a read-only query command therefore runs `appInit` first and only then the
scanner guard. -/
def runQueryCmd (base : Str) (st : DirSt) (found : List TodoEntry) :
    DirSt × List TodoEntry :=
  ((appInit base st).2, todoMatchesGuard (appInit base st).2 (appInit base st).1.notesDir found)

/-! ## Helper lemmas: stable sort, enumeration -/

theorem insertLe_perm {α : Type} (le : α → α → Bool) (x : α) (l : List α) :
    List.Perm (insertLe le x l) (x :: l) := by
  induction l with
  | nil => rfl
  | cons a t ih =>
    simp only [insertLe]
    split
    · rfl
    · exact (ih.cons a).trans (List.Perm.swap x a t)

theorem sortLe_perm {α : Type} (le : α → α → Bool) (l : List α) :
    List.Perm (sortLe le l) l := by
  induction l with
  | nil => rfl
  | cons a t ih => exact (insertLe_perm le a (sortLe le t)).trans (ih.cons a)

theorem mem_sortLe {α : Type} {le : α → α → Bool} {l : List α} {y : α} :
    y ∈ sortLe le l ↔ y ∈ l :=
  (sortLe_perm le l).mem_iff

theorem insertLe_chain {α : Type} {le : α → α → Bool}
    (htot : ∀ a b, le a b = true ∨ le b a = true) (x : α) {l : List α}
    (h : List.Chain' (fun a b => le a b = true) l) :
    List.Chain' (fun a b => le a b = true) (insertLe le x l) := by
  induction l with
  | nil => simp [insertLe]
  | cons a t ih =>
    by_cases hxa : le x a = true
    · simp only [insertLe, if_pos hxa]
      exact List.chain'_cons.mpr ⟨hxa, h⟩
    · simp only [insertLe, if_neg hxa]
      have hax : le a x = true := (htot x a).resolve_left hxa
      have htail := ih (List.Chain'.tail h)
      refine List.chain'_cons'.mpr ⟨?_, htail⟩
      intro y hy
      rcases t with _ | ⟨b, u⟩
      · simp [insertLe] at hy; subst hy; exact hax
      · by_cases hxb : le x b = true
        · simp only [insertLe, if_pos hxb, List.head?_cons,
            Option.mem_def, Option.some.injEq] at hy
          subst hy; exact hax
        · simp only [insertLe, if_neg hxb, List.head?_cons,
            Option.mem_def, Option.some.injEq] at hy
          subst hy
          exact (List.chain'_cons.mp h).1

theorem sortLe_chain {α : Type} {le : α → α → Bool}
    (htot : ∀ a b, le a b = true ∨ le b a = true) (l : List α) :
    List.Chain' (fun a b => le a b = true) (sortLe le l) := by
  induction l with
  | nil => simp [sortLe]
  | cons a t ih => exact insertLe_chain htot a ih

theorem pyLt_total (a b : Str) : a = b ∨ pyLt a b = true ∨ pyLt b a = true := by
  induction a generalizing b with
  | nil => cases b <;> simp [pyLt]
  | cons c s ih =>
    cases b with
    | nil => simp [pyLt]
    | cons d t =>
      rcases lt_trichotomy c d with h | h | h
      · right; left; rw [pyLt]; simp [ne_of_lt h, h]
      · subst h
        rcases ih t with h' | h' | h'
        · exact Or.inl (by rw [h'])
        · right; left; rw [pyLt]; simp [h']
        · right; right; rw [pyLt]; simp [h']
      · right; right; rw [pyLt]
        rw [if_neg (ne_of_lt h)]
        simp [h]

theorem pyLe_total (a b : Str) : pyLe a b = true ∨ pyLe b a = true := by
  rcases pyLt_total a b with h | h | h
  · subst h; left; simp [pyLe]
  · left; simp [pyLe, h]
  · right; simp [pyLe, h]

theorem enumFrom_mem {α : Type} {s i : Nat} {x : α} {l : List α}
    (h : (i, x) ∈ enumFrom s l) : s ≤ i ∧ l[i - s]? = some x := by
  induction l generalizing s with
  | nil => simp [enumFrom] at h
  | cons y t ih =>
    rw [enumFrom] at h
    rcases List.mem_cons.mp h with h' | h'
    · obtain ⟨rfl, rfl⟩ := Prod.mk.inj h'
      simp
    · obtain ⟨h1, h2⟩ := ih h'
      refine ⟨by omega, ?_⟩
      have he : i - s = (i - (s + 1)) + 1 := by omega
      rw [he]
      simpa using h2

theorem enumFrom_getElem {α : Type} (s : Nat) (l : List α) (j : Nat) :
    (enumFrom s l)[j]? = l[j]?.map (fun x => (s + j, x)) := by
  induction l generalizing s j with
  | nil => simp [enumFrom]
  | cons y t ih =>
    cases j with
    | zero => simp [enumFrom]
    | succ j' =>
      rw [enumFrom]
      simp only [List.getElem?_cons_succ]
      rw [ih (s + 1) j']
      have he : s + 1 + j' = s + (j' + 1) := by omega
      rw [he]

/-! ## Claim theorems: parser and simple operations -/

/-- C6: the note file `15-03-2024.md` line `- [ ] buy milk #errand
@due 2024-03-20` parses to text `buy milk`, tags `["errand"]`,
due `2024-03-20`, status `open`, completed `None`, created `2024-03-15`
(taken from the filename, independent of today's date). -/
theorem c6_parse_scenario (today : Str) :
    parseTodoLine today (lit "15-03-2024.md") 1
      (lit "- [ ] buy milk #errand @due 2024-03-20") =
    some { text := lit "buy milk", tags := [lit "errand"],
           created := lit "2024-03-15", file := lit "15-03-2024.md",
           lineNo := 1, status := lit "open",
           due := some (lit "2024-03-20"), completed := none } := rfl

/-- C2 counterexample: an unchecked line carrying an `@done` annotation
parses to a record with `status = open` and `completed` set, refuting the
claimed invariant `completed ≠ None ↔ status = done` as stated. -/
theorem c2_counterexample :
    ∃ t, parseTodoLine (lit "2024-03-16") (lit "15-03-2024.md") 1
        (lit "- [ ] pay rent @done 2024-01-01") = some t ∧
      t.completed = some (lit "2024-01-01") ∧ t.status = lit "open" ∧
      ¬(t.completed ≠ none ↔ t.status = lit "done") := by
  refine ⟨{ text := lit "pay rent", tags := [], created := lit "2024-03-15",
            file := lit "15-03-2024.md", lineNo := 1, status := lit "open",
            due := none, completed := some (lit "2024-01-01") },
          by decide, by decide, by decide, by decide⟩

/-- C2 amended: for every accepted checkbox line, `completed` equals the
result of searching the stripped body for an `@done YYYY-MM-DD` annotation,
independently of the checkbox marker; the marker alone determines `status`.
(So `completed` is set iff the body carries an `@done` date annotation, not
iff the status is `done`.) -/
theorem c2_completed_from_annotation (today fp : Str) (n : Nat) (rest : Str)
    (h1 : rest ≠ []) (h2 : rest.contains '\n' = false) :
    (parseTodoLine today fp n ('-' :: ' ' :: '[' :: ' ' :: ']' :: ' ' :: rest)).map
        TodoEntry.status = some (lit "open") ∧
    (parseTodoLine today fp n ('-' :: ' ' :: '[' :: 'x' :: ']' :: ' ' :: rest)).map
        TodoEntry.status = some (lit "done") ∧
    (parseTodoLine today fp n ('-' :: ' ' :: '[' :: ' ' :: ']' :: ' ' :: rest)).map
        TodoEntry.completed = some (searchDone (pyStrip rest)) ∧
    (parseTodoLine today fp n ('-' :: ' ' :: '[' :: 'x' :: ']' :: ' ' :: rest)).map
        TodoEntry.completed = some (searchDone (pyStrip rest)) := by
  have he : rest.isEmpty = false := by
    cases rest
    · exact absurd rfl h1
    · rfl
  have hmem : '\n' ∉ rest := by simpa using h2
  refine ⟨?_, ?_, ?_, ?_⟩ <;> simp [parseTodoLine, he, h2, hmem]

/-- C2 amended, witness at a concrete input. -/
theorem c2_completed_from_annotation_witness :
    (lit "pay rent @done 2024-01-01" ≠ ([] : Str)) ∧
    ((lit "pay rent @done 2024-01-01").contains '\n' = false) ∧
    ((parseTodoLine (lit "2024-03-16") (lit "15-03-2024.md") 1
        ('-' :: ' ' :: '[' :: ' ' :: ']' :: ' ' :: lit "pay rent @done 2024-01-01")).map
        TodoEntry.status = some (lit "open") ∧
     (parseTodoLine (lit "2024-03-16") (lit "15-03-2024.md") 1
        ('-' :: ' ' :: '[' :: 'x' :: ']' :: ' ' :: lit "pay rent @done 2024-01-01")).map
        TodoEntry.status = some (lit "done") ∧
     (parseTodoLine (lit "2024-03-16") (lit "15-03-2024.md") 1
        ('-' :: ' ' :: '[' :: ' ' :: ']' :: ' ' :: lit "pay rent @done 2024-01-01")).map
        TodoEntry.completed = some (searchDone (pyStrip (lit "pay rent @done 2024-01-01"))) ∧
     (parseTodoLine (lit "2024-03-16") (lit "15-03-2024.md") 1
        ('-' :: ' ' :: '[' :: 'x' :: ']' :: ' ' :: lit "pay rent @done 2024-01-01")).map
        TodoEntry.completed = some (searchDone (pyStrip (lit "pay rent @done 2024-01-01")))) :=
  ⟨by decide, by decide,
   c2_completed_from_annotation (lit "2024-03-16") (lit "15-03-2024.md") 1
     (lit "pay rent @done 2024-01-01") (by decide) (by decide)⟩

/-- C5 counterexample: `#Errand` and `#errand` on one line produce the two
tags `["Errand", "errand"]` (case preserved, code-point sorted), not the
single lowercase-normalized tag `["errand"]` the claim requires. -/
theorem c5_counterexample :
    parseTodoLine (lit "2024-03-16") (lit "15-03-2024.md") 1
      (lit "- [ ] buy stamps #Errand #errand") =
      some { text := lit "buy stamps", tags := [lit "Errand", lit "errand"],
             created := lit "2024-03-15", file := lit "15-03-2024.md",
             lineNo := 1, status := lit "open", due := none,
             completed := none } ∧
    [lit "Errand", lit "errand"] ≠ [lit "errand"] := by decide

/-- C5 amended: for every accepted checkbox line, `tags` is
`sorted(set(...))` of the `#`-labels found in the body after the annotation
strips: adjacent-sorted under Python string `<=`, duplicate-free, and
containing exactly the labels the tag scan finds — with their original case
(no lowercase normalization). -/
theorem c5_tags_sorted_dedup (today fp : Str) (n : Nat) (c : Char) (rest : Str)
    (hc : c = ' ' ∨ c = 'x') (h1 : rest ≠ []) (h2 : rest.contains '\n' = false) :
    ∃ t, parseTodoLine today fp n ('-' :: ' ' :: '[' :: c :: ']' :: ' ' :: rest) =
        some t ∧
      t.tags = pySortedSet (findTags (parsedBody rest)) ∧
      List.Chain' (fun a b => pyLe a b = true) t.tags ∧
      t.tags.Nodup ∧
      (∀ s, s ∈ t.tags ↔ s ∈ findTags (parsedBody rest)) := by
  have he : rest.isEmpty = false := by
    cases rest
    · exact absurd rfl h1
    · rfl
  have hmem : '\n' ∉ rest := by simpa using h2
  have hguard : ((c = ' ' || c = 'x') && !rest.isEmpty && !rest.contains '\n') = true := by
    rcases hc with h | h <;> simp [h, he, h2, hmem]
  refine ⟨{ text := pyStrip (subTags (parsedBody rest)),
            tags := pySortedSet (findTags (parsedBody rest)),
            created := createdOf today fp, file := fp, lineNo := n,
            status := if c = 'x' then lit "done" else lit "open",
            due := searchDue (bodyAfterDone rest),
            completed := searchDone (pyStrip rest) }, ?_, rfl, ?_, ?_, ?_⟩
  · rw [parseTodoLine, if_pos hguard]
  · exact sortLe_chain pyLe_total _
  · exact ((sortLe_perm pyLe _).nodup_iff).mpr (List.nodup_dedup _)
  · intro s
    exact mem_sortLe.trans List.mem_dedup

/-- C5 amended, witness at a concrete input. -/
theorem c5_tags_sorted_dedup_witness :
    (' ' = ' ' ∨ ' ' = 'x') ∧
    (∃ t, parseTodoLine (lit "2024-03-16") (lit "15-03-2024.md") 1
        ('-' :: ' ' :: '[' :: ' ' :: ']' :: ' ' :: lit "buy stamps #Errand #errand") =
        some t ∧
      t.tags = pySortedSet (findTags (parsedBody (lit "buy stamps #Errand #errand"))) ∧
      List.Chain' (fun a b => pyLe a b = true) t.tags ∧
      t.tags.Nodup ∧
      (∀ s, s ∈ t.tags ↔ s ∈ findTags (parsedBody (lit "buy stamps #Errand #errand")))) :=
  ⟨Or.inl rfl,
   c5_tags_sorted_dedup (lit "2024-03-16") (lit "15-03-2024.md") 1 ' '
     (lit "buy stamps #Errand #errand") (Or.inl rfl) (by decide) (by decide)⟩

/-- C7: a status mutation whose ordinal is below 1 or beyond the freshly
computed corpus fails with the "does not exist" outcome naming the index,
and the filesystem is returned unchanged. -/
theorem c7_bad_index_rejected (today : Str) (fs : FsT) (i : Nat) (status : Str)
    (h : i < 1 ∨ (loadTodos today fs).length < i) :
    updateTodoStatus today fs i status = (fs, UpdRes.notFound i) := by
  unfold updateTodoStatus
  rw [dif_neg (by omega)]

/-- C7, witness at a concrete input (ordinal 1 on an empty corpus). -/
theorem c7_bad_index_rejected_witness :
    (1 < 1 ∨ (loadTodos (lit "2024-03-16") ([] : FsT)).length < 1) ∧
    updateTodoStatus (lit "2024-03-16") ([] : FsT) 1 (lit "done") =
      ([], UpdRes.notFound 1) :=
  ⟨by decide,
   c7_bad_index_rejected (lit "2024-03-16") [] 1 (lit "done") (by decide)⟩

/-- C8: when the addressed record already has the target status, the mutator
returns the filesystem unchanged (zero writes) with the distinct no-op
outcome, which differs from every successful-change outcome. -/
theorem c8_noop_when_status_matches (today : Str) (fs : FsT) (i : Nat)
    (status : Str) (t : TodoEntry)
    (hi : 1 ≤ i) (hle : i ≤ (loadTodos today fs).length)
    (hg : (loadTodos today fs)[i - 1]? = some t) (hs : t.status = status) :
    updateTodoStatus today fs i status = (fs, UpdRes.noChange i status) ∧
    (∀ (j : Nat) (u : TodoEntry),
      UpdRes.noChange i status ≠ UpdRes.changed j u) := by
  constructor
  · unfold updateTodoStatus
    rw [dif_pos ⟨hi, hle⟩]
    simp only [hg]
    rw [if_pos hs]
  · intro j u
    simp

/-- C8, witness: marking an already-done todo done again. -/
theorem c8_noop_when_status_matches_witness :
    (loadTodos (lit "2024-03-16")
        [(lit "notes/2024/03/15-03-2024.md",
          [lit "- [x] file taxes @done 2024-03-10"])])[0]? =
      some { text := lit "file taxes", tags := [],
             created := lit "2024-03-15",
             file := lit "notes/2024/03/15-03-2024.md", lineNo := 1,
             status := lit "done", due := none,
             completed := some (lit "2024-03-10") } ∧
    (updateTodoStatus (lit "2024-03-16")
        [(lit "notes/2024/03/15-03-2024.md",
          [lit "- [x] file taxes @done 2024-03-10"])] 1 (lit "done") =
      ([(lit "notes/2024/03/15-03-2024.md",
         [lit "- [x] file taxes @done 2024-03-10"])],
       UpdRes.noChange 1 (lit "done")) ∧
     (∀ (j : Nat) (u : TodoEntry),
       UpdRes.noChange 1 (lit "done") ≠ UpdRes.changed j u)) :=
  ⟨by decide,
   c8_noop_when_status_matches (lit "2024-03-16")
     [(lit "notes/2024/03/15-03-2024.md",
       [lit "- [x] file taxes @done 2024-03-10"])] 1 (lit "done")
     { text := lit "file taxes", tags := [], created := lit "2024-03-15",
       file := lit "notes/2024/03/15-03-2024.md", lineNo := 1,
       status := lit "done", due := none,
       completed := some (lit "2024-03-10") }
     (by decide) (by decide) (by decide) (by decide)⟩

/-- C4 counterexample: a present line that no longer matches the checkbox
pattern is **not** detected as a conflict — the mutator still writes,
appending an `@done` date to the unrelated line (the anchored checkbox
substitution silently leaves the line unchanged). -/
theorem c4_counterexample :
    isCheckboxLine (lit "some unrelated text") = false ∧
    updateFileLines (lit "2024-03-16") [lit "some unrelated text"] 1
        (lit "done") =
      some ([lit "some unrelated text @done 2024-03-16"],
            some (lit "2024-03-16")) := by decide

/-- C4 amended: the mutator's re-read step fails (conflict outcome, no
write) exactly when the file now has fewer lines than the recorded line
number; a still-present line is rewritten whether or not it still matches
the checkbox pattern. -/
theorem c4_conflict_iff_truncated (today : Str) (lines : List Str) (n : Nat)
    (status : Str) (h1 : 1 ≤ n) :
    updateFileLines today lines n status = none ↔ lines.length < n := by
  unfold updateFileLines
  rcases hg : lines[n - 1]? with _ | l
  · have hlen : lines.length ≤ n - 1 := by
      by_contra hc
      rw [List.getElem?_eq_getElem (by omega)] at hg
      exact absurd hg (by simp)
    simp only [hg]
    constructor
    · intro _; omega
    · intro _; trivial
  · have hlen : n - 1 < lines.length := (List.getElem?_eq_some.mp hg).1
    simp only [hg]
    constructor
    · intro hcon
      split at hcon <;> exact absurd hcon (by simp)
    · intro hcon; omega

/-- C4 amended, witness: a one-line file with recorded line number 2. -/
theorem c4_conflict_iff_truncated_witness :
    1 ≤ 2 ∧
    (updateFileLines (lit "2024-03-16") [lit "- [ ] a"] 2 (lit "done") = none ↔
      ([lit "- [ ] a"] : List Str).length < 2) :=
  ⟨by decide,
   c4_conflict_iff_truncated (lit "2024-03-16") [lit "- [ ] a"] 2
     (lit "done") (by decide)⟩

/-- C10: constructing the application creates the base directory and its
`notes` subdirectory when missing — so the scanner's missing-notes-root
branch is unreachable through the application object, and a read-only query
command still mutates the directory state. -/
theorem c10_init_creates_dirs (base : Str) (st : DirSt)
    (found : List TodoEntry) (h : (appInit base st).1.notesDir ∉ st) :
    (appInit base st).1.notesDir ∈ (appInit base st).2 ∧
    base ∈ (appInit base st).2 ∧
    (appInit base st).2 ≠ st ∧
    runQueryCmd base st found = ((appInit base st).2, found) := by
  have hself : ∀ (p : Str) (s : DirSt), p ∈ mkdirP p s := by
    intro p s
    unfold mkdirP
    split
    · assumption
    · exact List.mem_cons_self p s
  have hmono : ∀ (p q : Str) (s : DirSt), q ∈ s → q ∈ mkdirP p s := by
    intro p q s hq
    unfold mkdirP
    split
    · exact hq
    · exact List.mem_cons_of_mem p hq
  have hmem : (base ++ lit "/notes") ∈ mkdirP (base ++ lit "/notes") (mkdirP base st) :=
    hself _ _
  have hbase : base ∈ mkdirP (base ++ lit "/notes") (mkdirP base st) :=
    hmono _ _ _ (hself base st)
  refine ⟨hmem, hbase, ?_, ?_⟩
  · intro heq
    exact h (heq ▸ hmem)
  · unfold runQueryCmd todoMatchesGuard
    simp only [appInit]
    rw [if_pos hmem]

/-- C10, witness at a concrete base directory and an empty disk. -/
theorem c10_init_creates_dirs_witness :
    ((appInit (lit "/home/u/.nt") []).1.notesDir ∉ ([] : DirSt)) ∧
    ((appInit (lit "/home/u/.nt") []).1.notesDir ∈ (appInit (lit "/home/u/.nt") []).2 ∧
     lit "/home/u/.nt" ∈ (appInit (lit "/home/u/.nt") []).2 ∧
     (appInit (lit "/home/u/.nt") []).2 ≠ [] ∧
     runQueryCmd (lit "/home/u/.nt") [] [] = ((appInit (lit "/home/u/.nt") []).2, [])) :=
  ⟨by decide, c10_init_creates_dirs (lit "/home/u/.nt") [] [] (by decide)⟩

/-- C9: every `(index, todo)` pair shown in any agenda group carries the
todo's 1-based ordinal in the full corpus (enumerated before the open-status
and tag filters): the corpus at position `index - 1` is that todo, the
unfiltered list view shows the same pair at the same position, and the index
is in the valid range accepted by the status mutator. -/
theorem c9_agenda_uses_corpus_ordinals (todos : List TodoEntry)
    (tags : List Str) (k : Str) (grp : List (Nat × TodoEntry)) (i : Nat)
    (t : TodoEntry) (hg : (k, grp) ∈ agendaGroups todos tags)
    (hm : (i, t) ∈ grp) :
    1 ≤ i ∧ i ≤ todos.length ∧ todos[i - 1]? = some t ∧
    (listViewPairs todos (lit "all"))[i - 1]? = some (i, t) := by
  obtain ⟨k', _, heq⟩ := List.mem_map.mp hg
  obtain ⟨hk, hgrp⟩ := Prod.mk.inj heq
  have hsel : (i, t) ∈ agendaSelected todos tags := by
    rw [← hgrp] at hm
    exact (List.mem_filter.mp (mem_sortLe.mp hm)).1
  have henum : (i, t) ∈ enumFrom 1 todos :=
    (List.mem_filter.mp hsel).1
  obtain ⟨h1, h2⟩ := enumFrom_mem henum
  have hlt : i - 1 < todos.length := (List.getElem?_eq_some.mp h2).1
  refine ⟨h1, by omega, h2, ?_⟩
  unfold listViewPairs
  rw [if_neg (by simp)]
  rw [enumFrom_getElem, h2]
  have : 1 + (i - 1) = i := by omega
  simp [this]

/-- The two corpus records of the C9 witness below. -/
def c9wA : TodoEntry :=
  { text := lit "a", tags := [], created := lit "2024-03-14",
    file := lit "f.md", lineNo := 1, status := lit "done",
    due := none, completed := none }

/-- The open record shown by the agenda in the C9 witness below. -/
def c9wB : TodoEntry :=
  { text := lit "b", tags := [], created := lit "2024-03-15",
    file := lit "g.md", lineNo := 1, status := lit "open",
    due := some (lit "2024-03-20"), completed := none }

/-- C9, witness: a two-element corpus where the agenda shows the second
entry under its due date with index 2. -/
theorem c9_agenda_uses_corpus_ordinals_witness :
    ((lit "2024-03-20", [(2, c9wB)]) ∈ agendaGroups [c9wA, c9wB] []) ∧
    ((2, c9wB) ∈ [(2, c9wB)]) ∧
    (1 ≤ 2 ∧ 2 ≤ ([c9wA, c9wB] : List TodoEntry).length ∧
     ([c9wA, c9wB] : List TodoEntry)[2 - 1]? = some c9wB ∧
     (listViewPairs [c9wA, c9wB] (lit "all"))[2 - 1]? = some (2, c9wB)) :=
  ⟨by decide, by decide,
   c9_agenda_uses_corpus_ordinals [c9wA, c9wB] [] (lit "2024-03-20")
     [(2, c9wB)] 2 c9wB (by decide) (by decide)⟩

/-! ## Helper lemmas: split / join / rstrip round trips -/

theorem pySplitNl_ne_nil (s : Str) : pySplitNl s ≠ [] := by
  cases s with
  | nil => simp [pySplitNl]
  | cons c t =>
    rw [pySplitNl]
    split
    · simp
    · rcases pySplitNl t with _ | ⟨p, ps⟩ <;> simp

theorem splitNl_mem_noNl {s l : Str} (h : l ∈ pySplitNl s) : '\n' ∉ l := by
  induction s generalizing l with
  | nil =>
    rw [pySplitNl] at h
    simp at h
    subst h
    simp
  | cons c t ih =>
    rw [pySplitNl] at h
    split at h
    · rcases List.mem_cons.mp h with h' | h'
      · subst h'; simp
      · exact ih h'
    · rename_i hc
      rcases hsp : pySplitNl t with _ | ⟨p, ps⟩
      · exact absurd hsp (pySplitNl_ne_nil t)
      · rw [hsp] at h
        rcases List.mem_cons.mp h with h' | h'
        · subst h'
          intro hm
          rcases List.mem_cons.mp hm with h'' | h''
          · exact hc h''.symm
          · exact ih (hsp ▸ List.mem_cons_self p ps) h''
        · exact ih (hsp ▸ List.mem_cons_of_mem p h')

theorem splitNl_single {x : Str} (h : '\n' ∉ x) : pySplitNl x = [x] := by
  induction x with
  | nil => rfl
  | cons c t ih =>
    have hc : c ≠ '\n' := by
      intro hcc
      subst hcc
      exact h (List.mem_cons_self _ _)
    rw [pySplitNl, if_neg hc, ih (fun hm => h (List.mem_cons_of_mem c hm))]

theorem splitNl_append_nl {x : Str} (r : Str) (h : '\n' ∉ x) :
    pySplitNl (x ++ '\n' :: r) = x :: pySplitNl r := by
  induction x with
  | nil => simp [pySplitNl]
  | cons c t ih =>
    have hc : c ≠ '\n' := by
      intro hcc
      subst hcc
      exact h (List.mem_cons_self _ _)
    rw [List.cons_append, pySplitNl, if_neg hc,
      ih (fun hm => h (List.mem_cons_of_mem c hm))]

theorem joinNl_split {L : List Str} (hne : L ≠ []) (h : ∀ l ∈ L, '\n' ∉ l) :
    pySplitNl (joinNl L) = L := by
  induction L with
  | nil => exact absurd rfl hne
  | cons x t ih =>
    cases t with
    | nil => exact splitNl_single (h x (List.mem_cons_self x []))
    | cons y u =>
      show pySplitNl (x ++ '\n' :: joinNl (y :: u)) = x :: y :: u
      rw [splitNl_append_nl _ (h x (List.mem_cons_self x (y :: u))),
        ih (by simp) (fun l hl => h l (List.mem_cons_of_mem x hl))]

theorem rstripNl_append_nl (x : Str) : pyRstripNl (x ++ ['\n']) = pyRstripNl x := by
  unfold pyRstripNl
  rw [List.reverse_append]
  simp [List.dropWhile_cons]

theorem rstripNl_last_not_nl {x : Str}
    (h : ∀ c, x.getLast? = some c → c ≠ '\n') : pyRstripNl x = x := by
  rcases List.eq_nil_or_concat x with rfl | ⟨y, c, hx⟩
  · rfl
  · rw [List.concat_eq_append] at hx
    subst hx
    have hc : c ≠ '\n' := h c (List.getLast?_concat y)
    unfold pyRstripNl
    rw [List.reverse_append]
    simp [List.dropWhile_cons, hc]

theorem joinNl_concat_ne_nil (t : List Str) {e : Str} (he : e ≠ []) :
    joinNl (t ++ [e]) ≠ [] := by
  cases t with
  | nil => simpa [joinNl] using he
  | cons z w =>
    cases w with
    | nil => simp [joinNl]
    | cons z2 w2 => simp [joinNl]

theorem getLast?_cons_of_ne_nil {α : Type} {a : α} {J : List α} (h : J ≠ []) :
    (a :: J).getLast? = J.getLast? := by
  cases J with
  | nil => exact absurd rfl h
  | cons b l => exact List.getLast?_cons_cons

theorem getLast?_joinNl (M : List Str) {e : Str} (he : e ≠ []) :
    (joinNl (M ++ [e])).getLast? = e.getLast? := by
  induction M with
  | nil => rfl
  | cons x t ih =>
    have hJ : joinNl (t ++ [e]) ≠ [] := joinNl_concat_ne_nil t he
    show (joinNl (x :: (t ++ [e]))).getLast? = e.getLast?
    have hcons : ∃ z w, t ++ [e] = z :: w := by
      cases t with
      | nil => exact ⟨e, [], rfl⟩
      | cons z w => exact ⟨z, w ++ [e], by simp⟩
    obtain ⟨z, w, hzw⟩ := hcons
    rw [hzw]
    show (x ++ '\n' :: joinNl (z :: w)).getLast? = e.getLast?
    have hJ2 : joinNl (z :: w) ≠ [] := by rw [← hzw]; exact hJ
    have h1 : ('\n' :: joinNl (z :: w)).getLast? = (joinNl (z :: w)).getLast? :=
      getLast?_cons_of_ne_nil hJ2
    have h3 : (joinNl (z :: w)).getLast? = e.getLast? := by rw [← hzw]; exact ih
    rw [List.getLast?_append, h1, h3,
      List.getLast?_eq_getLast_of_ne_nil he]
    rfl

theorem readLines_roundtrip {L : List Str} (hne : L ≠ [])
    (hnl : ∀ l ∈ L, '\n' ∉ l) (hlast : L.getLast? ≠ some []) :
    readLines (joinNl L ++ ['\n']) = L := by
  rcases List.eq_nil_or_concat L with rfl | ⟨M, e, hL⟩
  · exact absurd rfl hne
  · rw [List.concat_eq_append] at hL
    subst hL
    have he : e ≠ [] := by
      intro h
      apply hlast
      rw [h]
      exact List.getLast?_concat M
    unfold readLines
    rw [rstripNl_append_nl]
    rw [rstripNl_last_not_nl ?hl]
    case hl =>
      intro c hc
      rw [getLast?_joinNl M he] at hc
      obtain ⟨hok, heq⟩ := List.mem_getLast?_eq_getLast (Option.mem_def.mpr hc)
      have hmem : c ∈ e := heq ▸ List.getLast_mem hok
      intro hcnl
      exact hnl e (by simp) (hcnl ▸ hmem)
    exact joinNl_split hne hnl

theorem head?_dropWhile_not (p : Char → Bool) :
    ∀ (l : List Char) (a : Char), (l.dropWhile p).head? = some a → p a = false := by
  intro l
  induction l with
  | nil => intro a h; simp at h
  | cons c t ih =>
    intro a h
    rw [List.dropWhile_cons] at h
    split at h
    · exact ih a h
    · rename_i hc
      simp at h
      subst h
      simpa using hc

theorem splitNl_getLast_ne_nil {s : Str} (hne : s ≠ [])
    (hlast : ∀ c, s.getLast? = some c → c ≠ '\n') :
    (pySplitNl s).getLast? ≠ some [] := by
  induction s with
  | nil => exact absurd rfl hne
  | cons a t ih =>
    cases t with
    | nil =>
      have ha : a ≠ '\n' := hlast a (by simp)
      rw [pySplitNl, if_neg ha]
      simp [pySplitNl]
    | cons b u =>
      have hlast' : ∀ c, (b :: u).getLast? = some c → c ≠ '\n' := by
        intro c hc
        exact hlast c (by rw [List.getLast?_cons_cons]; exact hc)
      have ih' := ih (by simp) hlast'
      rw [pySplitNl]
      by_cases ha : a = '\n'
      · rw [if_pos ha]
        rcases hsp : pySplitNl (b :: u) with _ | ⟨p, ps⟩
        · exact absurd hsp (pySplitNl_ne_nil _)
        · rw [hsp] at ih'
          rw [getLast?_cons_of_ne_nil (by simp)]
          exact ih'
      · rw [if_neg ha]
        rcases hsp : pySplitNl (b :: u) with _ | ⟨p, ps⟩
        · exact absurd hsp (pySplitNl_ne_nil _)
        · rw [hsp] at ih'
          cases ps with
          | nil => simp
          | cons q qs =>
            rw [List.getLast?_cons_cons]
            rw [List.getLast?_cons_cons] at ih'
            exact ih'

theorem readLines_singleton_or_last (c : Str) :
    readLines c = [[]] ∨ (readLines c).getLast? ≠ some [] := by
  unfold readLines
  rcases hs : pyRstripNl c with _ | ⟨a, t⟩
  · left; rfl
  · right
    apply splitNl_getLast_ne_nil (by simp)
    intro ch hch
    have hrev : pyRstripNl c = (c.reverse.dropWhile (· = '\n')).reverse := rfl
    have h1 : (pyRstripNl c).getLast? = some ch := by rw [hs]; exact hch
    rw [hrev, List.getLast?_reverse] at h1
    have := head?_dropWhile_not (· = '\n') c.reverse ch h1
    simpa using this

theorem readLines_mem_noNl {c l : Str} (h : l ∈ readLines c) : '\n' ∉ l :=
  splitNl_mem_noNl h

/-! ## Helper lemmas: the section-append insertion point -/

theorem idxOfL_append {H : Str} (pre rest : List Str) (h : H ∉ pre) :
    idxOfL H (pre ++ H :: rest) = pre.length := by
  induction pre with
  | nil => simp [idxOfL]
  | cons a t ih =>
    have ha : a ≠ H := fun he => h (he ▸ List.mem_cons_self a t)
    rw [List.cons_append, idxOfL, if_neg ha,
      ih (fun hm => h (List.mem_cons_of_mem a hm))]
    simp

theorem drop_len_succ (pre : List Str) (x : Str) (rest : List Str) :
    (pre ++ x :: rest).drop (pre.length + 1) = rest := by
  have h1 : pre ++ x :: rest = (pre ++ [x]) ++ rest := by simp
  have h2 : pre.length + 1 = (pre ++ [x]).length := by simp
  rw [h1, h2, List.drop_left]

theorem findHH_append (mid : List Str) (hh : Str) (post : List Str)
    (hmid : ∀ x ∈ mid, startsHH x = false) (hhh : startsHH hh = true) :
    findHH (mid ++ hh :: post) = mid.length := by
  induction mid with
  | nil => simp [findHH, hhh]
  | cons a t ih =>
    rw [List.cons_append, findHH, if_neg (by simp [hmid a (List.mem_cons_self a t)]),
      ih (fun x hx => hmid x (List.mem_cons_of_mem a hx))]
    simp

theorem insAt_append (A : List Str) (x : Str) (B : List Str) :
    insAt A.length x (A ++ B) = A ++ x :: B := by
  unfold insAt
  rw [List.take_left, List.drop_left]

theorem getD_append_len (A : List Str) (x : Str) (B : List Str) (d : Str) :
    (A ++ x :: B).getD A.length d = x := by
  rw [List.getD_eq_getElem?_getD, List.getElem?_append_right (le_refl _)]
  simp

/-- Full computation of `appendLines` on a file whose (first) heading
occurrence is followed by section content `mid` and then the next `## `
heading: the new line lands at the end of the section, preceded by a fresh
blank line exactly when `mid` ends with a non-blank line. -/
theorem appendLines_calc (pre mid post : List Str) (hh l : Str)
    (hpre : lit "## Todos" ∉ pre)
    (hmid : ∀ x ∈ mid, startsHH x = false)
    (hhh : startsHH hh = true) :
    appendLines (pre ++ lit "## Todos" :: (mid ++ hh :: post)) (lit "## Todos") l =
      if mid ≠ [] ∧ (pyStrip (mid.getLastD [])).isEmpty = false then
        pre ++ lit "## Todos" :: (mid ++ [] :: l :: hh :: post)
      else
        pre ++ lit "## Todos" :: (mid ++ l :: hh :: post) := by
  unfold appendLines
  have hmem : lit "## Todos" ∈ pre ++ lit "## Todos" :: (mid ++ hh :: post) := by
    simp
  rw [if_pos hmem]
  unfold appendAt insPt
  rw [idxOfL_append pre _ hpre, drop_len_succ,
    findHH_append mid hh post hmid hhh]
  rcases List.eq_nil_or_concat mid with rfl | ⟨mid', e, hm⟩
  · rw [if_neg (by simp)]
    rw [if_neg (by simp)]
    have h1 : pre ++ lit "## Todos" :: (([] : List Str) ++ hh :: post) =
        (pre ++ [lit "## Todos"]) ++ hh :: post := by simp
    have h2 : pre.length + 1 + List.length ([] : List Str) =
        (pre ++ [lit "## Todos"]).length := by simp
    rw [h1, h2, insAt_append]
    simp
  · rw [List.concat_eq_append] at hm
    subst hm
    have hlen : (mid' ++ [e]).length = mid'.length + 1 := by simp
    have hd : (decide (pre.length + 1 < pre.length + 1 + (mid' ++ [e]).length)) = true := by
      simp
    have hpos : pre.length + 1 + (mid' ++ [e]).length - 1 =
        (pre ++ lit "## Todos" :: mid').length := by simp; omega
    have hassoc : pre ++ lit "## Todos" :: ((mid' ++ [e]) ++ hh :: post) =
        (pre ++ lit "## Todos" :: mid') ++ e :: (hh :: post) := by simp
    have hgd : (pre ++ lit "## Todos" :: ((mid' ++ [e]) ++ hh :: post)).getD
        (pre.length + 1 + (mid' ++ [e]).length - 1) [] = e := by
      rw [hpos, hassoc, getD_append_len]
    rw [hd, hgd]
    by_cases hps : (pyStrip e).isEmpty = true
    · have hc : (true && !(pyStrip e).isEmpty) = false := by simp [hps]
      rw [hc]
      simp only [Bool.false_eq_true, if_false]
      rw [if_neg (by simp [List.getLastD_concat, hps])]
      have h2 : pre.length + 1 + (mid' ++ [e]).length =
          (pre ++ lit "## Todos" :: (mid' ++ [e])).length := by simp; omega
      have h3 : pre ++ lit "## Todos" :: ((mid' ++ [e]) ++ hh :: post) =
          (pre ++ lit "## Todos" :: (mid' ++ [e])) ++ hh :: post := by simp
      rw [h2, h3, insAt_append]
      simp
    · have hps' : (pyStrip e).isEmpty = false := by
        cases h : (pyStrip e).isEmpty
        · rfl
        · exact absurd h hps
      have hc : (true && !(pyStrip e).isEmpty) = true := by simp [hps']
      rw [hc]
      simp only [if_true]
      rw [if_pos ⟨by simp, by simp [List.getLastD_concat, hps']⟩]
      have h2 : pre.length + 1 + (mid' ++ [e]).length =
          (pre ++ lit "## Todos" :: (mid' ++ [e])).length := by simp; omega
      have h3 : pre ++ lit "## Todos" :: ((mid' ++ [e]) ++ hh :: post) =
          (pre ++ lit "## Todos" :: (mid' ++ [e])) ++ hh :: post := by simp
      rw [h2, h3, insAt_append]
      have h4 : (pre ++ lit "## Todos" :: (mid' ++ [e])).length + 1 =
          ((pre ++ lit "## Todos" :: (mid' ++ [e])) ++ [([] : Str)]).length := by
        simp
        omega
      have h5 : (pre ++ lit "## Todos" :: (mid' ++ [e])) ++ ([] : Str) :: hh :: post =
          ((pre ++ lit "## Todos" :: (mid' ++ [e])) ++ [([] : Str)]) ++ hh :: post := by
        simp
      rw [h4, h5, insAt_append]
      simp

theorem startsHH_ne_nil {x : Str} (h : startsHH x = true) : x ≠ [] := by
  intro he
  rw [he] at h
  simp [startsHH] at h

/-- C3 counterexample: two `append_to_section` calls on a freshly created
note file (empty `## Todos` section) produce a blank line **between** the
two appended todos and **no** blank line between the second todo and the
`## Notes` heading — the opposite of the claimed layout. -/
theorem c3_counterexample :
    readLines (appendToSection (appendToSection
        (ensureNoteHeader (lit "15-03-2024")) (lit "## Todos") (lit "- [ ] a"))
        (lit "## Todos") (lit "- [ ] b")) =
      [lit "# 15-03-2024", [], lit "## Todos", [], lit "- [ ] a", [],
       lit "- [ ] b", lit "## Notes"] ∧
    [lit "# 15-03-2024", [], lit "## Todos", [], lit "- [ ] a", [],
     lit "- [ ] b", lit "## Notes"][5]? = some [] ∧
    [lit "# 15-03-2024", [], lit "## Todos", [], lit "- [ ] a", [],
     lit "- [ ] b", lit "## Notes"][7]? = some (lit "## Notes") := by decide

/-- C3 amended: calling the section-append writer twice on a file whose
`## Todos` section is empty (the heading followed directly by the next
heading, or by a single blank line) yields both lines present in call order
with exactly one blank line **between** them, and **no** blank line between
the second appended line and the next `## ` heading. -/
theorem c3_two_appends_layout (content : Str) (pre gap post : List Str)
    (hh l1 l2 : Str)
    (hread : readLines content = pre ++ lit "## Todos" :: (gap ++ hh :: post))
    (hpre : lit "## Todos" ∉ pre)
    (hgap : gap = [] ∨ gap = [[]])
    (hhh : startsHH hh = true)
    (h1hh : startsHH l1 = false) (h2hh : startsHH l2 = false)
    (h1s : (pyStrip l1).isEmpty = false) (h2s : (pyStrip l2).isEmpty = false)
    (h1n : '\n' ∉ l1) (h2n : '\n' ∉ l2) :
    readLines (appendToSection (appendToSection content (lit "## Todos") l1)
        (lit "## Todos") l2) =
      pre ++ lit "## Todos" :: (gap ++ l1 :: ([] : Str) :: l2 :: hh :: post) := by
  have hgapHH : ∀ x ∈ gap, startsHH x = false := by
    rcases hgap with rfl | rfl
    · intro x hx; simp at hx
    · intro x hx
      simp at hx
      subst hx
      rfl
  have hgaps : (pyStrip (gap.getLastD [])).isEmpty = true := by
    rcases hgap with rfl | rfl <;> rfl
  -- membership and noNl facts about the original line list
  have hL0nl : ∀ x ∈ pre ++ lit "## Todos" :: (gap ++ hh :: post), '\n' ∉ x := by
    intro x hx
    exact readLines_mem_noNl (hread ▸ hx)
  -- the first append, line-list level
  have hA1 : appendLines (pre ++ lit "## Todos" :: (gap ++ hh :: post))
      (lit "## Todos") l1 = pre ++ lit "## Todos" :: (gap ++ l1 :: hh :: post) := by
    rw [appendLines_calc pre gap post hh l1 hpre hgapHH hhh]
    rw [if_neg (by
      intro hcontra
      rw [hgaps] at hcontra
      exact absurd hcontra.2 (by simp))]
  -- last element of the original tail is not an empty line when post ≠ []
  have hpostlast : post ≠ [] → post.getLast? ≠ some [] := by
    intro hpne hc
    rcases readLines_singleton_or_last content with hone | hlast
    · rw [hone] at hread
      have hlen := congrArg List.length hread
      simp at hlen
      omega
    · rw [hread] at hlast
      apply hlast
      have hsh : pre ++ lit "## Todos" :: (gap ++ hh :: post) =
          (pre ++ lit "## Todos" :: (gap ++ [hh])) ++ post := by simp
      rw [hsh, List.getLast?_append, hc]
      rfl
  -- shape facts reused twice
  have hA1ne : (pre ++ lit "## Todos" :: (gap ++ l1 :: hh :: post)) ≠ [] := by simp
  have hA1nl : ∀ x ∈ pre ++ lit "## Todos" :: (gap ++ l1 :: hh :: post), '\n' ∉ x := by
    intro x hx
    simp only [List.mem_append, List.mem_cons] at hx
    rcases hx with hx | hx | hx | hx | hx | hx
    · exact hL0nl x (by simp [hx])
    · exact hL0nl x (by simp [hx])
    · exact hL0nl x (by simp [hx])
    · exact hx ▸ h1n
    · exact hL0nl x (by simp [hx])
    · exact hL0nl x (by simp [hx])
  have hA1last : (pre ++ lit "## Todos" :: (gap ++ l1 :: hh :: post)).getLast? ≠
      some [] := by
    rcases List.eq_nil_or_concat post with rfl | ⟨q, v, hq⟩
    · have : pre ++ lit "## Todos" :: (gap ++ l1 :: hh :: ([] : List Str)) =
          (pre ++ lit "## Todos" :: (gap ++ [l1])) ++ [hh] := by simp
      rw [this, List.getLast?_concat]
      intro hc
      exact startsHH_ne_nil hhh (Option.some.inj hc)
    · rw [List.concat_eq_append] at hq
      subst hq
      have : pre ++ lit "## Todos" :: (gap ++ l1 :: hh :: (q ++ [v])) =
          (pre ++ lit "## Todos" :: (gap ++ l1 :: hh :: q)) ++ [v] := by simp
      rw [this, List.getLast?_concat]
      intro hc
      apply hpostlast (by simp)
      rw [List.getLast?_concat, Option.some.inj hc]
  -- read-back of the first write
  have hread1 : readLines (appendToSection content (lit "## Todos") l1) =
      pre ++ lit "## Todos" :: (gap ++ l1 :: hh :: post) := by
    unfold appendToSection
    rw [hread, hA1]
    exact readLines_roundtrip hA1ne hA1nl hA1last
  -- the second append, line-list level
  have hA2 : appendLines (pre ++ lit "## Todos" :: (gap ++ l1 :: hh :: post))
      (lit "## Todos") l2 =
      pre ++ lit "## Todos" :: (gap ++ l1 :: ([] : Str) :: l2 :: hh :: post) := by
    have hshape : pre ++ lit "## Todos" :: (gap ++ l1 :: hh :: post) =
        pre ++ lit "## Todos" :: ((gap ++ [l1]) ++ hh :: post) := by simp
    rw [hshape]
    rw [appendLines_calc pre (gap ++ [l1]) post hh l2 hpre
      (by
        intro x hx
        rcases List.mem_append.mp hx with hx | hx
        · exact hgapHH x hx
        · simp at hx; exact hx ▸ h1hh)
      hhh]
    rw [if_pos ⟨by simp, by rw [List.getLastD_concat]; exact h1s⟩]
    simp
  -- shape facts for the second read-back
  have hA2ne : (pre ++ lit "## Todos" ::
      (gap ++ l1 :: ([] : Str) :: l2 :: hh :: post)) ≠ [] := by simp
  have hA2nl : ∀ x ∈ pre ++ lit "## Todos" ::
      (gap ++ l1 :: ([] : Str) :: l2 :: hh :: post), '\n' ∉ x := by
    intro x hx
    simp only [List.mem_append, List.mem_cons] at hx
    rcases hx with hx | hx | hx | hx | hx | hx | hx | hx
    · exact hL0nl x (by simp [hx])
    · exact hL0nl x (by simp [hx])
    · exact hL0nl x (by simp [hx])
    · exact hx ▸ h1n
    · subst hx; simp
    · exact hx ▸ h2n
    · exact hL0nl x (by simp [hx])
    · exact hL0nl x (by simp [hx])
  have hA2last : (pre ++ lit "## Todos" ::
      (gap ++ l1 :: ([] : Str) :: l2 :: hh :: post)).getLast? ≠ some [] := by
    rcases List.eq_nil_or_concat post with rfl | ⟨q, v, hq⟩
    · have : pre ++ lit "## Todos" ::
          (gap ++ l1 :: ([] : Str) :: l2 :: hh :: ([] : List Str)) =
          (pre ++ lit "## Todos" :: (gap ++ l1 :: ([] : Str) :: [l2])) ++ [hh] := by
        simp
      rw [this, List.getLast?_concat]
      intro hc
      exact startsHH_ne_nil hhh (Option.some.inj hc)
    · rw [List.concat_eq_append] at hq
      subst hq
      have : pre ++ lit "## Todos" ::
          (gap ++ l1 :: ([] : Str) :: l2 :: hh :: (q ++ [v])) =
          (pre ++ lit "## Todos" :: (gap ++ l1 :: ([] : Str) :: l2 :: hh :: q)) ++
            [v] := by simp
      rw [this, List.getLast?_concat]
      intro hc
      apply hpostlast (by simp)
      rw [List.getLast?_concat, Option.some.inj hc]
  -- read-back of the second write
  show readLines (joinNl (appendLines
      (readLines (appendToSection content (lit "## Todos") l1))
      (lit "## Todos") l2) ++ ['\n']) = _
  rw [hread1, hA2]
  exact readLines_roundtrip hA2ne hA2nl hA2last

/-- C3 amended, witness on a freshly created note file. -/
theorem c3_two_appends_layout_witness :
    (readLines (ensureNoteHeader (lit "15-03-2024")) =
      [lit "# 15-03-2024", ([] : Str)] ++ lit "## Todos" ::
        ([[]] ++ lit "## Notes" :: []) ∧
     lit "## Todos" ∉ [lit "# 15-03-2024", ([] : Str)] ∧
     ([[]] = ([] : List Str) ∨ [[]] = [([] : Str)]) ∧
     startsHH (lit "## Notes") = true ∧
     startsHH (lit "- [ ] a") = false ∧ startsHH (lit "- [ ] b") = false ∧
     (pyStrip (lit "- [ ] a")).isEmpty = false ∧
     (pyStrip (lit "- [ ] b")).isEmpty = false ∧
     '\n' ∉ lit "- [ ] a" ∧ '\n' ∉ lit "- [ ] b") ∧
    readLines (appendToSection (appendToSection
        (ensureNoteHeader (lit "15-03-2024")) (lit "## Todos") (lit "- [ ] a"))
        (lit "## Todos") (lit "- [ ] b")) =
      [lit "# 15-03-2024", ([] : Str)] ++ lit "## Todos" ::
        ([[]] ++ lit "- [ ] a" :: ([] : Str) :: lit "- [ ] b" ::
          lit "## Notes" :: []) :=
  ⟨⟨by decide, by decide, by decide, by decide, by decide, by decide,
    by decide, by decide, by decide, by decide⟩,
   c3_two_appends_layout (ensureNoteHeader (lit "15-03-2024"))
     [lit "# 15-03-2024", ([] : Str)] [[]] [] (lit "## Notes")
     (lit "- [ ] a") (lit "- [ ] b") (by decide) (by decide) (by decide)
     (by decide) (by decide) (by decide) (by decide) (by decide)
     (by decide) (by decide)⟩

/-! ## Helper lemmas for C1: substrings, strips, and the `@done` annotation -/

theorem containsSub_iff_infixOf (nd s : Str) :
    containsSub nd s = true ↔ nd <:+: s := by
  induction s with
  | nil =>
    rw [containsSub]
    simp [List.isEmpty_iff, List.infix_nil]
  | cons c t ih =>
    rw [containsSub]
    rw [Bool.or_eq_true, List.infix_cons_iff, List.isPrefixOf_iff_prefix, ih]

theorem containsSub_false_of_infix {nd s m : Str}
    (h : containsSub nd s = false) (hm : m <:+: s) :
    containsSub nd m = false := by
  cases hc : containsSub nd m
  · rfl
  · exfalso
    have h1 := (containsSub_iff_infixOf nd m).mp hc
    have h2 := (containsSub_iff_infixOf nd s).mpr (h1.trans hm)
    rw [h] at h2
    exact Bool.false_ne_true h2

theorem containsSub_cons_false {nd : Str} {c : Char} {t : Str}
    (h : containsSub nd (c :: t) = false) :
    nd.isPrefixOf (c :: t) = false ∧ containsSub nd t = false := by
  rw [containsSub] at h
  exact Bool.or_eq_false_iff.mp h

theorem pyRstrip_prefixOf (s : Str) : pyRstrip s <+: s := by
  have h := List.reverse_prefix.mpr (List.dropWhile_suffix (l := s.reverse) pyIsSpace)
  rwa [List.reverse_reverse] at h

theorem pyStrip_infixOf (s : Str) : pyStrip s <:+: s :=
  ((List.dropWhile_suffix pyIsSpace).isInfix).trans (pyRstrip_prefixOf s).isInfix

theorem pfxDone_cons5 (a b c d e : Char) (X : Str) :
    (lit "@done").isPrefixOf (a :: b :: c :: d :: e :: X) =
      ('@' == a && ('d' == b && ('o' == c && ('n' == d && 'e' == e)))) := by
  show List.isPrefixOf _ _ = _
  simp [List.isPrefixOf]

/-- The five-character literal `@done` cannot start in the final characters
of `l` and finish inside `' ' :: r`, because none of `d`, `o`, `n`, `e` is a
space; so prefix-failure on `l` transfers to `l ++ ' ' :: r`. -/
theorem pfxDone_append {l : Str} (hne : l ≠ [])
    (hl : (lit "@done").isPrefixOf l = false) (r : Str) :
    (lit "@done").isPrefixOf (l ++ ' ' :: r) = false :=
  match l, hne with
  | [a], _ => by
    show List.isPrefixOf _ (a :: ' ' :: r) = false
    simp [List.isPrefixOf]
  | [a, b], _ => by
    show List.isPrefixOf _ (a :: b :: ' ' :: r) = false
    simp [List.isPrefixOf]
  | [a, b, c], _ => by
    show List.isPrefixOf _ (a :: b :: c :: ' ' :: r) = false
    simp [List.isPrefixOf]
  | [a, b, c, d], _ => by
    show List.isPrefixOf _ (a :: b :: c :: d :: ' ' :: r) = false
    simp [List.isPrefixOf]
  | a :: b :: c :: d :: e :: rest, _ => by
    show (lit "@done").isPrefixOf (a :: b :: c :: d :: e :: (rest ++ ' ' :: r)) = false
    rw [pfxDone_cons5]
    rw [pfxDone_cons5] at hl
    exact hl

theorem containsSub_done_cons_ne {a : Char} (t : Str) (ha : (a == '@') = false) :
    containsSub (lit "@done") (a :: t) = containsSub (lit "@done") t := by
  rw [containsSub]
  have hp : (lit "@done").isPrefixOf (a :: t) = false := by
    show List.isPrefixOf _ _ = _
    simp [List.isPrefixOf, ha]
    intro h
    rw [h] at ha
    simp at ha
  rw [hp, Bool.false_or]

theorem doneAt_none_of_pfx_false {s : Str}
    (h : (lit "@done").isPrefixOf s = false) : doneAt s = none := by
  unfold doneAt
  rw [h]
  simp

theorem searchDone_none_of_not_contains {s : Str}
    (h : containsSub (lit "@done") s = false) : searchDone s = none := by
  induction s with
  | nil => rfl
  | cons c t ih =>
    obtain ⟨h1, h2⟩ := containsSub_cons_false h
    rw [searchDone, doneAt_none_of_pfx_false h1]
    exact ih h2

theorem digit_not_space {c : Char} (h : pyIsDigit c = true) :
    pyIsSpace c = false := by
  cases hs : pyIsSpace c
  · rfl
  · exfalso
    unfold pyIsSpace at hs
    simp only [Bool.or_eq_true, decide_eq_true_eq] at hs
    rcases hs with (((((h' | h') | h') | h') | h') | h') <;>
      first
        | (subst h'; simp [pyIsDigit] at h)
        | simp [pyIsDigit] at h

theorem matchDate_inv {s dd r : Str} (h : matchDate s = some (dd, r)) :
    s = dd ++ r ∧ ∃ y1 y2 y3 y4 m1 m2 d1 d2,
      dd = [y1, y2, y3, y4, '-', m1, m2, '-', d1, d2] ∧
      pyIsDigit y1 = true ∧ pyIsDigit y2 = true ∧ pyIsDigit y3 = true ∧
      pyIsDigit y4 = true ∧ pyIsDigit m1 = true ∧ pyIsDigit m2 = true ∧
      pyIsDigit d1 = true ∧ pyIsDigit d2 = true := by
  unfold matchDate at h
  split at h
  · rename_i y1 y2 y3 y4 m1 m2 d1 d2 rest
    split at h
    · rename_i hdig
      simp only [Option.some.injEq, Prod.mk.injEq] at h
      obtain ⟨h1, h2⟩ := h
      subst h2
      simp only [Bool.and_eq_true] at hdig
      refine ⟨by rw [← h1]; rfl, y1, y2, y3, y4, m1, m2, d1, d2, h1.symm,
        hdig.1.1.1.1.1.1.1, hdig.1.1.1.1.1.1.2, hdig.1.1.1.1.1.2,
        hdig.1.1.1.1.2, hdig.1.1.1.2, hdig.1.1.2, hdig.1.2, hdig.2⟩
    · exact absurd h (by simp)
  · exact absurd h (by simp)

theorem dateShape_matchDate {d : Str} (h : isDateShape d = true) :
    matchDate d = some (d, []) := by
  unfold isDateShape at h
  rcases hm : matchDate d with _ | ⟨dd, r⟩
  · rw [hm] at h; simp at h
  · rw [hm] at h
    cases r with
    | cons x xs => simp at h
    | nil =>
      have hdec := (matchDate_inv hm).1
      simp at hdec
      rw [hdec]

theorem dateShape_elim {d : Str} (h : isDateShape d = true) :
    ∃ y1 y2 y3 y4 m1 m2 d1 d2,
      d = [y1, y2, y3, y4, '-', m1, m2, '-', d1, d2] ∧
      pyIsDigit y1 = true ∧ pyIsDigit y2 = true ∧ pyIsDigit y3 = true ∧
      pyIsDigit y4 = true ∧ pyIsDigit m1 = true ∧ pyIsDigit m2 = true ∧
      pyIsDigit d1 = true ∧ pyIsDigit d2 = true := by
  have hm := dateShape_matchDate h
  obtain ⟨_, hrest⟩ := matchDate_inv hm
  exact hrest

theorem dateShape_head {d : Str} (h : isDateShape d = true) :
    ∃ c t, d = c :: t ∧ pyIsSpace c = false := by
  obtain ⟨y1, y2, y3, y4, m1, m2, d1, d2, hd, h1, _⟩ := dateShape_elim h
  exact ⟨y1, _, hd, digit_not_space h1⟩

theorem dateShape_concat {d : Str} (h : isDateShape d = true) :
    ∃ t c, d = t ++ [c] ∧ pyIsSpace c = false := by
  obtain ⟨y1, y2, y3, y4, m1, m2, d1, d2, hd, _, _, _, _, _, _, _, h8⟩ :=
    dateShape_elim h
  exact ⟨[y1, y2, y3, y4, '-', m1, m2, '-', d1], d2,
    by rw [hd]; rfl, digit_not_space h8⟩

theorem dateShape_noNl {d : Str} (h : isDateShape d = true) : '\n' ∉ d := by
  obtain ⟨y1, y2, y3, y4, m1, m2, d1, d2, hd, h1, h2, h3, h4, h5, h6, h7, h8⟩ :=
    dateShape_elim h
  subst hd
  intro hm
  simp only [List.mem_cons, List.not_mem_nil, or_false] at hm
  rcases hm with h' | h' | h' | h' | h' | h' | h' | h' | h' | h'
  all_goals first
    | (subst h'; simp [pyIsDigit] at h1 h2 h3 h4 h5 h6 h7 h8)
    | (exact absurd h' (by decide))

theorem pyLstrip_id_of_head {s : Str}
    (h : ∀ c, s.head? = some c → pyIsSpace c = false) : pyLstrip s = s := by
  cases s with
  | nil => rfl
  | cons c t =>
    unfold pyLstrip
    rw [List.dropWhile_cons, if_neg (by rw [h c rfl]; simp)]

theorem pyRstrip_id_of_last {s : Str}
    (h : ∀ c, s.getLast? = some c → pyIsSpace c = false) : pyRstrip s = s := by
  rcases List.eq_nil_or_concat s with rfl | ⟨t, c, hs⟩
  · rfl
  · rw [List.concat_eq_append] at hs
    subst hs
    have hc := h c (List.getLast?_concat t)
    unfold pyRstrip
    rw [List.reverse_append]
    simp [List.dropWhile_cons, hc]

theorem head?_pyStrip {s : Str} {c : Char} (h : (pyStrip s).head? = some c) :
    pyIsSpace c = false :=
  head?_dropWhile_not pyIsSpace (pyRstrip s) c h

theorem getLast?_pyRstrip {s : Str} {c : Char}
    (h : (pyRstrip s).getLast? = some c) : pyIsSpace c = false := by
  unfold pyRstrip at h
  rw [List.getLast?_reverse] at h
  exact head?_dropWhile_not pyIsSpace s.reverse c h

theorem getLast?_suffix_eq {α : Type} {l m : List α} (h : m <:+ l) (hm : m ≠ []) :
    l.getLast? = m.getLast? := by
  obtain ⟨p, hp⟩ := h
  subst hp
  rw [List.getLast?_append]
  rcases hg : m.getLast? with _ | v
  · exact absurd (by simpa using hg) hm
  · rfl

theorem getLast?_pyStrip {s : Str} {c : Char} (h : (pyStrip s).getLast? = some c) :
    pyIsSpace c = false := by
  have hne : pyStrip s ≠ [] := by
    intro he
    rw [he] at h
    simp at h
  have hsuf : pyStrip s <:+ pyRstrip s := List.dropWhile_suffix pyIsSpace
  have := getLast?_suffix_eq hsuf hne
  exact getLast?_pyRstrip (this ▸ h)

theorem pyStrip_idem (s : Str) : pyStrip (pyStrip s) = pyStrip s := by
  have h1 : pyRstrip (pyStrip s) = pyStrip s :=
    pyRstrip_id_of_last (fun c hc => getLast?_pyStrip hc)
  show pyLstrip (pyRstrip (pyStrip s)) = pyStrip s
  rw [h1]
  exact pyLstrip_id_of_head (fun c hc => head?_pyStrip hc)

theorem pyStrip_eq_nil_iff {s : Str} :
    pyStrip s = [] ↔ ∀ c ∈ s, pyIsSpace c = true := by
  constructor
  · intro h c hc
    by_contra hns
    -- c survives both strips? easier: if some c non-ws, pyRstrip keeps a non-ws
    -- last, and pyLstrip keeps something.
    have hrs : pyRstrip s ≠ [] := by
      intro hr
      unfold pyRstrip at hr
      have : s.reverse.dropWhile pyIsSpace = [] := by
        have := congrArg List.reverse hr
        simpa using this
      have := List.dropWhile_eq_nil_iff.mp this c (by simpa using hc)
      exact hns this
    -- the whole of s is ws-prefix ++ pyRstrip s? no: pyRstrip is a prefix.
    -- Use: pyStrip s = [] means dropWhile ws (pyRstrip s) = [], so all of
    -- pyRstrip s is whitespace; but its last char is non-ws.
    have hall := List.dropWhile_eq_nil_iff.mp h
    rcases List.eq_nil_or_concat (pyRstrip s) with hr | ⟨t, c2, hr⟩
    · exact hrs hr
    · rw [List.concat_eq_append] at hr
      have hc2 : pyIsSpace c2 = false := getLast?_pyRstrip (by rw [hr]; exact List.getLast?_concat t)
      have : pyIsSpace c2 = true := hall c2 (by rw [hr]; simp)
      rw [hc2] at this
      exact Bool.false_ne_true this
  · intro h
    have h1 : pyRstrip s = [] := by
      unfold pyRstrip
      have : s.reverse.dropWhile pyIsSpace = [] :=
        List.dropWhile_eq_nil_iff.mpr (fun x hx => h x (by simpa using hx))
      rw [this]
      rfl
    show pyLstrip (pyRstrip s) = []
    rw [h1]
    rfl

theorem pyRstrip_ne_nil_of_strip {s : Str} (h : pyStrip s ≠ []) :
    pyRstrip s ≠ [] := by
  intro hr
  apply h
  show pyLstrip (pyRstrip s) = []
  rw [hr]
  rfl

theorem pyRstrip_append_of_ne {r : Str} (h : pyRstrip r ≠ []) (l : Str) :
    pyRstrip (l ++ r) = l ++ pyRstrip r := by
  unfold pyRstrip at h ⊢
  rw [List.reverse_append, List.dropWhile_append]
  have hne : (r.reverse.dropWhile pyIsSpace).isEmpty = false := by
    cases he : (r.reverse.dropWhile pyIsSpace).isEmpty
    · rfl
    · exfalso
      apply h
      rw [List.isEmpty_iff] at he
      rw [he]
      rfl
  rw [hne]
  simp

theorem pyRstrip_append_allws {r : Str} (h : ∀ c ∈ r, pyIsSpace c = true)
    (l : Str) : pyRstrip (l ++ r) = pyRstrip l := by
  unfold pyRstrip
  rw [List.reverse_append, List.dropWhile_append]
  have he : (r.reverse.dropWhile pyIsSpace).isEmpty = true := by
    rw [List.isEmpty_iff]
    exact List.dropWhile_eq_nil_iff.mpr (fun x hx => h x (by simpa using hx))
  rw [he]
  simp

theorem pyLstrip_append_of_ne {l : Str} (h : pyLstrip l ≠ []) (r : Str) :
    pyLstrip (l ++ r) = pyLstrip l ++ r := by
  unfold pyLstrip at h ⊢
  rw [List.dropWhile_append]
  have hne : (l.dropWhile pyIsSpace).isEmpty = false := by
    cases he : (l.dropWhile pyIsSpace).isEmpty
    · rfl
    · exact absurd (List.isEmpty_iff.mp he) h
  rw [hne]
  simp

/-- `doneAt` succeeds at the start of `@done <d>` for a date-shaped `d`,
consuming everything. -/
theorem doneAt_ann {d : Str} (hd : isDateShape d = true) :
    doneAt ('@' :: 'd' :: 'o' :: 'n' :: 'e' :: ' ' :: d) = some (d, []) := by
  obtain ⟨c, t, hdc, hcs⟩ := dateShape_head hd
  unfold doneAt
  rw [if_pos (by show List.isPrefixOf _ _ = true; simp [List.isPrefixOf])]
  have hdrop : ('@' :: 'd' :: 'o' :: 'n' :: 'e' :: ' ' :: d).drop 5 = ' ' :: d := rfl
  rw [hdrop]
  have htake : (' ' :: d).takeWhile pyIsSpace = ' ' :: d.takeWhile pyIsSpace := by
    rw [List.takeWhile_cons]
    simp [pyIsSpace]
  have hdropw : (' ' :: d).dropWhile pyIsSpace = d := by
    rw [List.dropWhile_cons]
    rw [if_pos (by simp [pyIsSpace])]
    rw [hdc, List.dropWhile_cons, if_neg (by simp [hcs])]
  rw [if_neg (by rw [htake]; simp), hdropw]
  exact dateShape_matchDate hd

/-- Leftmost search for the `@done` annotation in `b ++ " @done " ++ d` when
`b` contains no `@done` substring: the appended annotation is found. -/
theorem searchDone_append_ann {d : Str} (hd : isDateShape d = true) :
    ∀ b : Str, containsSub (lit "@done") b = false →
      searchDone (b ++ ' ' :: '@' :: 'd' :: 'o' :: 'n' :: 'e' :: ' ' :: d) =
        some d := by
  intro b
  induction b with
  | nil =>
    intro _
    rw [List.nil_append, searchDone,
      doneAt_none_of_pfx_false (by show List.isPrefixOf _ _ = false; simp [List.isPrefixOf]),
      searchDone, doneAt_ann hd]
  | cons c b' ih =>
    intro hb
    obtain ⟨hp, hb'⟩ := containsSub_cons_false hb
    have hda := doneAt_none_of_pfx_false
      (pfxDone_append (l := c :: b') (by simp) hp
        ('@' :: 'd' :: 'o' :: 'n' :: 'e' :: ' ' :: d))
    rw [List.cons_append] at hda
    rw [List.cons_append, searchDone, hda]
    exact ih hb'

/-- Deleting `\s*@done\s+\d{4}-\d{2}-\d{2}` from `b ++ " @done " ++ d`
removes exactly the appended annotation when `b` has no `@done` substring
and does not end in whitespace. -/
theorem subDone_append_ann {d : Str} (hd : isDateShape d = true) :
    ∀ b : Str, containsSub (lit "@done") b = false →
      (∀ c, b.getLast? = some c → pyIsSpace c = false) →
      subDone (b ++ ' ' :: '@' :: 'd' :: 'o' :: 'n' :: 'e' :: ' ' :: d) = b := by
  intro b
  induction b with
  | nil =>
    intro _ _
    rw [List.nil_append, subDone_cons]
    have hsda : subDoneAt (' ' :: '@' :: 'd' :: 'o' :: 'n' :: 'e' :: ' ' :: d) =
        some [] := by
      unfold subDoneAt
      have hdw : (' ' :: '@' :: 'd' :: 'o' :: 'n' :: 'e' :: ' ' :: d).dropWhile
          pyIsSpace = '@' :: 'd' :: 'o' :: 'n' :: 'e' :: ' ' :: d := by
        rw [List.dropWhile_cons, if_pos (by simp [pyIsSpace]),
          List.dropWhile_cons, if_neg (by simp [pyIsSpace])]
      rw [hdw, doneAt_ann hd]
      rfl
    rw [hsda]
    rfl
  | cons c b' ih =>
    intro hb hlast
    obtain ⟨hp, hb'⟩ := containsSub_cons_false hb
    have hlastb : ¬ pyIsSpace ((c :: b').getLast (by simp)) = true := by
      intro hws
      have := hlast _ (List.getLast?_eq_getLast_of_ne_nil (by simp))
      rw [this] at hws
      exact Bool.false_ne_true hws
    have hsda : subDoneAt ((c :: b') ++
        ' ' :: '@' :: 'd' :: 'o' :: 'n' :: 'e' :: ' ' :: d) = none := by
      unfold subDoneAt
      have hdwne : (c :: b').dropWhile pyIsSpace ≠ [] := by
        rw [ne_eq, List.dropWhile_eq_nil_iff]
        intro hall
        exact hlastb (hall _ (List.getLast_mem (by simp)))
      have hdw : ((c :: b') ++
          ' ' :: '@' :: 'd' :: 'o' :: 'n' :: 'e' :: ' ' :: d).dropWhile pyIsSpace =
          ((c :: b').dropWhile pyIsSpace) ++
            ' ' :: '@' :: 'd' :: 'o' :: 'n' :: 'e' :: ' ' :: d := by
        rw [List.dropWhile_append]
        rw [if_neg (by
          intro hie
          exact hdwne (List.isEmpty_iff.mp hie))]
      rw [hdw]
      have hpfx : (lit "@done").isPrefixOf ((c :: b').dropWhile pyIsSpace) = false := by
        cases hc : (lit "@done").isPrefixOf ((c :: b').dropWhile pyIsSpace)
        · rfl
        · exfalso
          have hinf : (lit "@done") <:+: (c :: b') :=
            ((List.isPrefixOf_iff_prefix.mp hc).isInfix).trans
              (List.dropWhile_suffix pyIsSpace).isInfix
          have := (containsSub_iff_infixOf (lit "@done") (c :: b')).mpr hinf
          rw [hb] at this
          exact Bool.false_ne_true this
      rw [doneAt_none_of_pfx_false (pfxDone_append hdwne hpfx _)]
      rfl
    rw [List.cons_append] at hsda
    rw [List.cons_append, subDone_cons, hsda]
    have hlast' : ∀ ch, b'.getLast? = some ch → pyIsSpace ch = false := by
      intro ch hch
      cases b' with
      | nil => simp at hch
      | cons x xs =>
        apply hlast
        rw [getLast?_cons_of_ne_nil (by simp)]
        exact hch
    exact congrArg (c :: ·) (ih hb' hlast')
theorem contains_nl_false {l : Str} (h : '\n' ∉ l) : l.contains '\n' = false := by
  simpa using h

theorem parseTodoLine_intro (today fp : Str) (n : Nat) (c : Char) (rest : Str)
    (hc : c = ' ' ∨ c = 'x') (h1 : rest ≠ []) (h2 : rest.contains '\n' = false) :
    parseTodoLine today fp n ('-' :: ' ' :: '[' :: c :: ']' :: ' ' :: rest) =
      some { text := pyStrip (subTags (parsedBody rest))
             tags := pySortedSet (findTags (parsedBody rest))
             created := createdOf today fp
             file := fp
             lineNo := n
             status := if c = 'x' then lit "done" else lit "open"
             due := searchDue (bodyAfterDone rest)
             completed := searchDone (pyStrip rest) } := by
  have he : rest.isEmpty = false := by
    cases rest
    · exact absurd rfl h1
    · rfl
  have hnm : '\n' ∉ rest := by simpa using h2
  rw [parseTodoLine, if_pos (by rcases hc with h | h <;> simp [h, he, hnm])]

theorem parseTodoLine_some_elim {today fp : Str} {n : Nat} {line : Str}
    {t : TodoEntry} (h : parseTodoLine today fp n line = some t) :
    ∃ c rest, line = '-' :: ' ' :: '[' :: c :: ']' :: ' ' :: rest ∧
      (c = ' ' ∨ c = 'x') ∧ rest ≠ [] ∧ rest.contains '\n' = false ∧
      t = { text := pyStrip (subTags (parsedBody rest))
            tags := pySortedSet (findTags (parsedBody rest))
            created := createdOf today fp
            file := fp
            lineNo := n
            status := if c = 'x' then lit "done" else lit "open"
            due := searchDue (bodyAfterDone rest)
            completed := searchDone (pyStrip rest) } := by
  unfold parseTodoLine at h
  split at h
  · rename_i c rest
    split at h
    · rename_i hguard
      simp only [Bool.and_eq_true, Bool.or_eq_true, decide_eq_true_eq,
        Bool.not_eq_eq_eq_not, Bool.not_true, List.isEmpty_eq_false] at hguard
      obtain ⟨⟨hc, hne⟩, hcn⟩ := hguard
      exact ⟨c, rest, rfl, hc, hne, hcn, (Option.some.inj h).symm⟩
    · exact absurd h (by simp)
  · exact absurd h (by simp)

theorem subCheckbox_shape (repl : Str) (c : Char) (rest : Str)
    (hc : c = ' ' ∨ c = 'x') :
    subCheckbox repl ('-' :: ' ' :: '[' :: c :: ']' :: ' ' :: rest) =
      repl ++ rest := by
  rcases hc with h | h <;> subst h <;> rfl

theorem containsSub_done_xpfx (rest : Str) :
    containsSub (lit "@done") (lit "- [x] " ++ rest) =
      containsSub (lit "@done") rest := by
  show containsSub _ ('-' :: ' ' :: '[' :: 'x' :: ']' :: ' ' :: rest) = _
  rw [containsSub_done_cons_ne _ (by decide), containsSub_done_cons_ne _ (by decide),
    containsSub_done_cons_ne _ (by decide), containsSub_done_cons_ne _ (by decide),
    containsSub_done_cons_ne _ (by decide), containsSub_done_cons_ne _ (by decide)]

/-- Core preservation lemma behind C1: marking a parsed line done yields a
line that parses to the same record apart from `status` (forced to `done`)
and `completed`. -/
theorem parse_markDone {today fp : Str} {n : Nat} {line : Str} {t : TodoEntry}
    {d : Str} (hd : isDateShape d = true)
    (hp : parseTodoLine today fp n line = some t) :
    ∃ t2, parseTodoLine today fp n (markDoneLine d line) = some t2 ∧
      t2.text = t.text ∧ t2.tags = t.tags ∧ t2.due = t.due ∧
      t2.created = t.created ∧ t2.file = t.file ∧ t2.lineNo = t.lineNo ∧
      t2.status = lit "done" := by
  obtain ⟨c, rest, hline, hc, hne, hcn, ht⟩ := parseTodoLine_some_elim hp
  subst hline
  subst ht
  unfold markDoneLine
  rw [subCheckbox_shape _ c rest hc]
  have hxp : (lit "- [x] ") ++ rest = '-' :: ' ' :: '[' :: 'x' :: ']' :: ' ' :: rest := rfl
  rw [containsSub_done_xpfx rest]
  by_cases hin : containsSub (lit "@done") rest = true
  · rw [if_pos hin, hxp]
    rw [parseTodoLine_intro today fp n 'x' rest (Or.inr rfl) hne hcn]
    exact ⟨_, rfl, rfl, rfl, rfl, rfl, rfl, rfl, rfl⟩
  · have hin' : containsSub (lit "@done") rest = false := by
      cases hcc : containsSub (lit "@done") rest
      · rfl
      · exact absurd hcc hin
    rw [if_neg hin]
    by_cases hws : pyStrip rest = []
    · -- the body is pure whitespace
      have hall : ∀ ch ∈ rest, pyIsSpace ch = true := pyStrip_eq_nil_iff.mp hws
      have hr1 : pyRstrip (lit "- [x] " ++ rest) = lit "- [x]" := by
        rw [pyRstrip_append_allws hall]
        decide
      rw [hr1]
      have hupd : lit "- [x]" ++ lit " @done " ++ d =
          '-' :: ' ' :: '[' :: 'x' :: ']' :: ' ' ::
            ('@' :: 'd' :: 'o' :: 'n' :: 'e' :: ' ' :: d) := rfl
      rw [hupd]
      have hrest2ne : ('@' :: 'd' :: 'o' :: 'n' :: 'e' :: ' ' :: d) ≠ [] := by simp
      have hrest2nl : ('@' :: 'd' :: 'o' :: 'n' :: 'e' :: ' ' :: d).contains '\n' =
          false := by
        apply contains_nl_false
        intro hm
        simp at hm
        exact dateShape_noNl hd hm
      rw [parseTodoLine_intro today fp n 'x' _ (Or.inr rfl) hrest2ne hrest2nl]
      -- compute both sides' bodies
      have hstrip2 : pyStrip ('@' :: 'd' :: 'o' :: 'n' :: 'e' :: ' ' :: d) =
          '@' :: 'd' :: 'o' :: 'n' :: 'e' :: ' ' :: d := by
        obtain ⟨tl, cl, hdc, hcs⟩ := dateShape_concat hd
        have hlast : ∀ ch, ('@' :: 'd' :: 'o' :: 'n' :: 'e' :: ' ' :: d).getLast? =
            some ch → pyIsSpace ch = false := by
          intro ch hch
          rw [hdc] at hch
          have hshape : ('@' :: 'd' :: 'o' :: 'n' :: 'e' :: ' ' :: (tl ++ [cl])) =
              ('@' :: 'd' :: 'o' :: 'n' :: 'e' :: ' ' :: tl) ++ [cl] := by simp
          rw [hshape, List.getLast?_concat] at hch
          rw [← Option.some.inj hch]
          exact hcs
        have hhead : ∀ ch, ('@' :: 'd' :: 'o' :: 'n' :: 'e' :: ' ' :: d).head? =
            some ch → pyIsSpace ch = false := by
          intro ch hch
          rw [← Option.some.inj hch]
          decide
        show pyLstrip (pyRstrip _) = _
        rw [pyRstrip_id_of_last hlast, pyLstrip_id_of_head hhead]
      have hsd2 : searchDone ('@' :: 'd' :: 'o' :: 'n' :: 'e' :: ' ' :: d) =
          some d := by
        rw [searchDone, doneAt_ann hd]
      have hsubd2 : subDone ('@' :: 'd' :: 'o' :: 'n' :: 'e' :: ' ' :: d) = [] := by
        rw [subDone_cons]
        have hsda : subDoneAt ('@' :: 'd' :: 'o' :: 'n' :: 'e' :: ' ' :: d) =
            some [] := by
          unfold subDoneAt
          rw [List.dropWhile_cons, if_neg (by decide), doneAt_ann hd]
          rfl
        rw [hsda]
        rfl
      have hbad2 : bodyAfterDone ('@' :: 'd' :: 'o' :: 'n' :: 'e' :: ' ' :: d) = [] := by
        unfold bodyAfterDone
        rw [hstrip2, hsd2, hsubd2]
        rfl
      have hbad1 : bodyAfterDone rest = [] := by
        unfold bodyAfterDone
        rw [hws, searchDone]
        rfl
      have hpb : parsedBody ('@' :: 'd' :: 'o' :: 'n' :: 'e' :: ' ' :: d) =
          parsedBody rest := by
        unfold parsedBody
        rw [hbad2, hbad1]
      refine ⟨_, rfl, ?_, ?_, ?_, ?_, ?_, ?_, ?_⟩ <;>
        simp [hpb, hbad2, hbad1]
    · -- the stripped body is nonempty
      have hrne : pyRstrip rest ≠ [] := pyRstrip_ne_nil_of_strip hws
      rw [pyRstrip_append_of_ne hrne]
      have hupd : lit "- [x] " ++ pyRstrip rest ++ lit " @done " ++ d =
          '-' :: ' ' :: '[' :: 'x' :: ']' :: ' ' ::
            (pyRstrip rest ++
              (' ' :: '@' :: 'd' :: 'o' :: 'n' :: 'e' :: ' ' :: d)) := by
        simp [lit]
      rw [hupd]
      have hrest2ne : (pyRstrip rest ++
          (' ' :: '@' :: 'd' :: 'o' :: 'n' :: 'e' :: ' ' :: d)) ≠ [] := by simp
      have hnlrest : '\n' ∉ rest := by simpa using hcn
      have hrest2nl : (pyRstrip rest ++
          (' ' :: '@' :: 'd' :: 'o' :: 'n' :: 'e' :: ' ' :: d)).contains '\n' =
          false := by
        apply contains_nl_false
        intro hm
        rw [List.mem_append] at hm
        rcases hm with hm | hm
        · exact hnlrest ((pyRstrip_prefixOf rest).sublist.mem hm)
        · simp at hm
          exact dateShape_noNl hd hm
      rw [parseTodoLine_intro today fp n 'x' _ (Or.inr rfl) hrest2ne hrest2nl]
      -- the stripped new body is (pyStrip rest) ++ " @done " ++ d
      have hbody2 : pyStrip (pyRstrip rest ++
          (' ' :: '@' :: 'd' :: 'o' :: 'n' :: 'e' :: ' ' :: d)) =
          pyStrip rest ++ (' ' :: '@' :: 'd' :: 'o' :: 'n' :: 'e' :: ' ' :: d) := by
        obtain ⟨tl, cl, hdc, hcs⟩ := dateShape_concat hd
        have hr2 : pyRstrip (pyRstrip rest ++
            (' ' :: '@' :: 'd' :: 'o' :: 'n' :: 'e' :: ' ' :: d)) =
            pyRstrip rest ++ (' ' :: '@' :: 'd' :: 'o' :: 'n' :: 'e' :: ' ' :: d) := by
          apply pyRstrip_id_of_last
          intro ch hch
          rw [hdc] at hch
          have hsh : pyRstrip rest ++
              (' ' :: '@' :: 'd' :: 'o' :: 'n' :: 'e' :: ' ' :: (tl ++ [cl])) =
              (pyRstrip rest ++
                (' ' :: '@' :: 'd' :: 'o' :: 'n' :: 'e' :: ' ' :: tl)) ++ [cl] := by
            simp
          rw [hsh, List.getLast?_concat] at hch
          rw [← Option.some.inj hch]
          exact hcs
        show pyLstrip (pyRstrip _) = _
        rw [hr2, pyLstrip_append_of_ne hws]
        rfl
      have hcontb : containsSub (lit "@done") (pyStrip rest) = false :=
        containsSub_false_of_infix hin' (pyStrip_infixOf rest)
      have hlastb : ∀ ch, (pyStrip rest).getLast? = some ch →
          pyIsSpace ch = false := fun ch hch => getLast?_pyStrip hch
      have hsd2 := searchDone_append_ann hd (pyStrip rest) hcontb
      have hsubd2 := subDone_append_ann hd (pyStrip rest) hcontb hlastb
      have hbad2 : bodyAfterDone (pyRstrip rest ++
          (' ' :: '@' :: 'd' :: 'o' :: 'n' :: 'e' :: ' ' :: d)) = pyStrip rest := by
        unfold bodyAfterDone
        rw [hbody2, hsd2, hsubd2]
        simp [pyStrip_idem]
      have hbad1 : bodyAfterDone rest = pyStrip rest := by
        unfold bodyAfterDone
        rw [searchDone_none_of_not_contains hcontb]
        rfl
      have hpb : parsedBody (pyRstrip rest ++
          (' ' :: '@' :: 'd' :: 'o' :: 'n' :: 'e' :: ' ' :: d)) =
          parsedBody rest := by
        unfold parsedBody
        rw [hbad2, hbad1]
      refine ⟨_, rfl, ?_, ?_, ?_, ?_, ?_, ?_, ?_⟩ <;>
        simp [hpb, hbad2, hbad1]

/-! ## C1: corpus correspondence under a single-line rewrite -/

/-- Agreement on every field except `status` and `completed`. -/
def relC1 (a b : TodoEntry) : Prop :=
  a.text = b.text ∧ a.tags = b.tags ∧ a.due = b.due ∧
    a.created = b.created ∧ a.file = b.file ∧ a.lineNo = b.lineNo

/-- Pointwise relation between the corpus after marking the line `n` of file
`fp` done and the corpus before: records from any other provenance are
untouched, the one from `(fp, n)` keeps all fields except `status` (now
`done`) and `completed`. -/
def relM (fp : Str) (n : Nat) (a b : TodoEntry) : Prop :=
  (a = b ∧ ¬(b.file = fp ∧ b.lineNo = n)) ∨
    (relC1 a b ∧ a.status = lit "done" ∧ b.file = fp ∧ b.lineNo = n)

theorem relM_key {fp : Str} {n : Nat} {a b : TodoEntry} (h : relM fp n a b) :
    a.created = b.created ∧ a.file = b.file ∧ a.lineNo = b.lineNo := by
  rcases h with ⟨h, _⟩ | ⟨⟨_, _, _, h1, h2, h3⟩, _⟩
  · exact ⟨congrArg _ h, congrArg _ h, congrArg _ h⟩
  · exact ⟨h1, h2, h3⟩

theorem keyLe_congr {fp : Str} {n : Nat} {a b x y : TodoEntry}
    (h1 : relM fp n a b) (h2 : relM fp n x y) : keyLe a x = keyLe b y := by
  obtain ⟨ha1, ha2, ha3⟩ := relM_key h1
  obtain ⟨hx1, hx2, hx3⟩ := relM_key h2
  unfold keyLe
  rw [ha1, ha2, ha3, hx1, hx2, hx3]

theorem forall₂_relM_refl {fp : Str} {n : Nat} :
    ∀ {l : List TodoEntry}, (∀ a ∈ l, ¬(a.file = fp ∧ a.lineNo = n)) →
      List.Forall₂ (relM fp n) l l
  | [], _ => List.Forall₂.nil
  | a :: l, h =>
    List.Forall₂.cons (Or.inl ⟨rfl, h a (List.mem_cons_self a l)⟩)
      (forall₂_relM_refl fun x hx => h x (List.mem_cons_of_mem a hx))

theorem forall₂_get_right {α : Type} {r : α → α → Prop} :
    ∀ {l m : List α}, List.Forall₂ r l m → ∀ {j : Nat} {b : α},
      m[j]? = some b → ∃ a, l[j]? = some a ∧ r a b := by
  intro l m h
  induction h with
  | nil => intro j b hb; simp at hb
  | cons hab htl ih =>
    intro j b hb
    match j with
    | 0 =>
      simp only [List.getElem?_cons_zero, Option.some.injEq] at hb
      exact ⟨_, List.getElem?_cons_zero, hb ▸ hab⟩
    | j + 1 =>
      simp only [List.getElem?_cons_succ] at hb ⊢
      exact ih hb

theorem parseTodoLine_file_lineNo {today fp : Str} {n : Nat} {line : Str}
    {t : TodoEntry} (h : parseTodoLine today fp n line = some t) :
    t.file = fp ∧ t.lineNo = n := by
  obtain ⟨c, rest, _, _, _, _, ht⟩ := parseTodoLine_some_elim h
  rw [ht]
  exact ⟨rfl, rfl⟩

theorem scanLines_mem_spec {today fp : Str} :
    ∀ {i : Nat} {ls : List Str} {t : TodoEntry}, t ∈ scanLines today fp i ls →
      t.file = fp ∧ ∃ k l₀, ls[k]? = some l₀ ∧ t.lineNo = i + k ∧
        parseTodoLine today fp (i + k) l₀ = some t := by
  intro i ls
  induction ls generalizing i with
  | nil => intro t ht; simp [scanLines] at ht
  | cons l ls ih =>
    intro t ht
    rw [scanLines] at ht
    rcases hp : parseTodoLine today fp i l with _ | u
    · rw [hp] at ht
      obtain ⟨hf, k, l₀, hk, hn, hpar⟩ := ih ht
      exact ⟨hf, k + 1, l₀, by simpa using hk, by omega,
        by rw [show i + (k + 1) = i + 1 + k by omega]; exact hpar⟩
    · rw [hp] at ht
      rcases List.mem_cons.mp ht with ht | ht
    -- the head line itself, or a later line via the inductive hypothesis
      · subst ht
        obtain ⟨hf, hn⟩ := parseTodoLine_file_lineNo hp
        exact ⟨hf, 0, l, by simp, by omega, by simpa using hp⟩
      · obtain ⟨hf, k, l₀, hk, hn, hpar⟩ := ih ht
        exact ⟨hf, k + 1, l₀, by simpa using hk, by omega,
          by rw [show i + (k + 1) = i + 1 + k by omega]; exact hpar⟩

theorem scanLines_lineNo_ge {today fp : Str} {i : Nat} {ls : List Str}
    {t : TodoEntry} (h : t ∈ scanLines today fp i ls) : i ≤ t.lineNo := by
  obtain ⟨_, k, _, _, hn, _⟩ := scanLines_mem_spec h
  omega

theorem scanLines_set_rel {today fp d : Str} (hd : isDateShape d = true) :
    ∀ (ls : List Str) (i k : Nat) (l₀ : Str) (t : TodoEntry),
      ls[k]? = some l₀ → parseTodoLine today fp (i + k) l₀ = some t →
      List.Forall₂ (relM fp (i + k))
        (scanLines today fp i (ls.set k (markDoneLine d l₀)))
        (scanLines today fp i ls) := by
  intro ls
  induction ls with
  | nil => intro i k l₀ t hk; simp at hk
  | cons l ls ih =>
    intro i k l₀ t hk hp
    match k with
    | 0 =>
      simp only [List.getElem?_cons_zero, Option.some.injEq] at hk
      subst hk
      rw [List.set_cons_zero]
      rw [Nat.add_zero] at hp ⊢
      obtain ⟨t2, hp2, he1, he2, he3, he4, he5, he6, he7⟩ := parse_markDone hd hp
      obtain ⟨hf, hn⟩ := parseTodoLine_file_lineNo hp
      rw [scanLines, scanLines, hp, hp2]
      refine List.Forall₂.cons (Or.inr ⟨⟨he1, he2, he3, he4, he5, he6⟩, he7, hf, hn⟩) ?_
      exact forall₂_relM_refl fun a ha hcon =>
        absurd hcon.2 (by have := scanLines_lineNo_ge ha; omega)
    | k + 1 =>
      simp only [List.getElem?_cons_succ] at hk
      rw [List.set_cons_succ]
      have hrel : List.Forall₂ (relM fp (i + 1 + k))
          (scanLines today fp (i + 1) (ls.set k (markDoneLine d l₀)))
          (scanLines today fp (i + 1) ls) :=
        ih (i + 1) k l₀ t hk
          (by rw [show i + 1 + k = i + (k + 1) by omega]; exact hp)
      rw [show i + 1 + k = i + (k + 1) by omega] at hrel
      rw [scanLines, scanLines]
      rcases hpl : parseTodoLine today fp i l with _ | u
      · exact hrel
      · refine List.Forall₂.cons (Or.inl ⟨rfl, ?_⟩) hrel
        obtain ⟨_, hn⟩ := parseTodoLine_file_lineNo hpl
        omega

theorem scanAll_file_mem {today : Str} {fs : FsT} {t : TodoEntry}
    (h : t ∈ scanAll today fs) : t.file ∈ fs.map Prod.fst := by
  unfold scanAll at h
  rw [List.mem_flatten] at h
  obtain ⟨l, hl, htl⟩ := h
  rw [List.mem_map] at hl
  obtain ⟨e, he, rfl⟩ := hl
  obtain ⟨hf, _⟩ := scanLines_mem_spec htl
  rw [hf]
  exact List.mem_map.mpr ⟨e, he, rfl⟩

theorem fsRead_of_mem_nodup {fs : FsT} {p : Str} {m : List Str}
    (hnd : (fs.map Prod.fst).Nodup) (hmem : (p, m) ∈ fs) :
    fsRead fs p = some m := by
  induction fs with
  | nil => simp at hmem
  | cons e rest ih =>
    rw [List.map_cons, List.nodup_cons] at hnd
    rcases List.mem_cons.mp hmem with hmem | hmem
    · rw [← hmem, fsRead, if_pos rfl]
    · rw [fsRead]
      have hne : e.1 ≠ p := fun hq => hnd.1 (hq ▸ List.mem_map.mpr ⟨(p, m), hmem, rfl⟩)
      rw [if_neg hne]
      exact ih hnd.2 hmem

theorem fsRead_fsWrite_self {fs : FsT} {p : Str} {ls ls2 : List Str}
    (h : fsRead fs p = some ls) : fsRead (fsWrite fs p ls2) p = some ls2 := by
  induction fs with
  | nil => simp [fsRead] at h
  | cons e rest ih =>
    rw [fsRead] at h
    rw [fsWrite]
    by_cases hq : e.1 = p
    · rw [if_pos hq, fsRead, if_pos hq]
    · rw [if_neg hq, fsRead, if_neg hq]
      rw [if_neg hq] at h
      exact ih h

theorem scanAll_write_rel {today fp : Str} {n : Nat} {fs : FsT}
    {ls ls2 : List Str} (hnd : (fs.map Prod.fst).Nodup)
    (hr : fsRead fs fp = some ls)
    (h2 : List.Forall₂ (relM fp n) (scanLines today fp 1 ls2)
      (scanLines today fp 1 ls)) :
    List.Forall₂ (relM fp n) (scanAll today (fsWrite fs fp ls2))
      (scanAll today fs) := by
  induction fs with
  | nil => simp [fsRead] at hr
  | cons e rest ih =>
    rw [List.map_cons, List.nodup_cons] at hnd
    rw [fsRead] at hr
    rw [fsWrite]
    by_cases hq : e.1 = fp
    · rw [if_pos hq] at hr ⊢
      have hls : e.2 = ls := Option.some.inj hr
      show List.Forall₂ _ ((scanLines today e.1 1 ls2) ++ _)
        ((scanLines today e.1 1 e.2) ++ _)
      rw [hq, hls]
      refine List.rel_append h2 (forall₂_relM_refl fun a ha hcon => ?_)
      apply hnd.1
      rw [hq, ← hcon.1]
      exact scanAll_file_mem ha
    · rw [if_neg hq] at hr ⊢
      show List.Forall₂ _ ((scanLines today e.1 1 e.2) ++ _)
        ((scanLines today e.1 1 e.2) ++ _)
      refine List.rel_append
        (forall₂_relM_refl fun a ha hcon => ?_) (ih hnd.2 hr)
      obtain ⟨hf, _⟩ := scanLines_mem_spec ha
      exact hq (hf ▸ hcon.1)

theorem insertLe_forall₂ {fp : Str} {n : Nat} {a b : TodoEntry}
    (hab : relM fp n a b) :
    ∀ {l m : List TodoEntry}, List.Forall₂ (relM fp n) l m →
      List.Forall₂ (relM fp n) (insertLe keyLe a l) (insertLe keyLe b m) := by
  intro l m h
  induction h with
  | nil => exact List.Forall₂.cons hab List.Forall₂.nil
  | cons hxy htl ih =>
    rename_i x y l' m'
    simp only [insertLe]
    rw [keyLe_congr hab hxy]
    by_cases hle : keyLe b y = true
    · rw [if_pos hle, if_pos hle]
      exact List.Forall₂.cons hab (List.Forall₂.cons hxy htl)
    · rw [if_neg hle, if_neg hle]
      exact List.Forall₂.cons hxy ih

theorem sortLe_forall₂ {fp : Str} {n : Nat} :
    ∀ {l m : List TodoEntry}, List.Forall₂ (relM fp n) l m →
      List.Forall₂ (relM fp n) (sortLe keyLe l) (sortLe keyLe m) := by
  intro l m h
  induction h with
  | nil => exact List.Forall₂.nil
  | cons hxy htl ih => exact insertLe_forall₂ hxy ih

theorem loadTodos_getElem_spec {today : Str} {fs : FsT} {j : Nat}
    {t : TodoEntry} (hnd : (fs.map Prod.fst).Nodup)
    (h : (loadTodos today fs)[j]? = some t) :
    ∃ ls k l₀, fsRead fs t.file = some ls ∧ ls[k]? = some l₀ ∧
      t.lineNo = 1 + k ∧ parseTodoLine today t.file t.lineNo l₀ = some t := by
  have hmem : t ∈ loadTodos today fs := List.getElem?_mem h
  rw [loadTodos, mem_sortLe] at hmem
  unfold scanAll at hmem
  rw [List.mem_flatten] at hmem
  obtain ⟨l, hl, htl⟩ := hmem
  rw [List.mem_map] at hl
  obtain ⟨e, he, rfl⟩ := hl
  obtain ⟨hf, k, l₀, hk, hn, hpar⟩ := scanLines_mem_spec htl
  have hread : fsRead fs e.1 = some e.2 := fsRead_of_mem_nodup hnd he
  exact ⟨e.2, k, l₀, hf ▸ hread, hk, hn, by rw [hf, hn]; exact hpar⟩

theorem updateFileLines_done {today : Str} {ls : List Str} {n : Nat} {l₀ : Str}
    (hk : ls[n - 1]? = some l₀) :
    updateFileLines today ls n (lit "done") =
      some (ls.set (n - 1) (markDoneLine today l₀), some today) := by
  unfold updateFileLines
  rw [hk]
  exact if_pos rfl

theorem updateFileLines_open {today : Str} {ls : List Str} {n : Nat} {l₀ : Str}
    (hk : ls[n - 1]? = some l₀) :
    updateFileLines today ls n (lit "open") =
      some (ls.set (n - 1) (reopenLine l₀), none) := by
  unfold updateFileLines
  rw [hk]
  exact if_neg (by decide)

/-- C1: on a corpus with unique file paths and a well-formed current date,
mutating the todo at ordinal `i` to `done` and then immediately mutating
ordinal `i` to `open` reports a changed record with `status = open` and
`completed = none` whose `text`, `tags` and `due` equal those of the record
originally at ordinal `i`, and every line of the containing file other than
the recorded line is byte-identical to its content before the first
mutation. -/
theorem c1_done_then_open_roundtrip (today : Str) (fs : FsT) (i : Nat)
    (t : TodoEntry)
    (hnd : (fs.map Prod.fst).Nodup)
    (hd : isDateShape today = true)
    (h1 : 1 ≤ i) (h2 : i ≤ (loadTodos today fs).length)
    (hg : (loadTodos today fs)[i - 1]? = some t) :
    ∃ (u : TodoEntry) (ls ls2 : List Str),
      (updateTodoStatus today
          (updateTodoStatus today fs i (lit "done")).1 i (lit "open")).2 =
        UpdRes.changed i u ∧
      u.status = lit "open" ∧ u.completed = none ∧
      u.text = t.text ∧ u.tags = t.tags ∧ u.due = t.due ∧
      fsRead fs t.file = some ls ∧
      fsRead (updateTodoStatus today
          (updateTodoStatus today fs i (lit "done")).1 i (lit "open")).1
          t.file = some ls2 ∧
      ls2.length = ls.length ∧
      ∀ j : Nat, j ≠ t.lineNo - 1 → ls2[j]? = ls[j]? := by
  obtain ⟨ls, k, l₀, hread, hk, hn, hpar⟩ := loadTodos_getElem_spec hnd hg
  have hk1 : t.lineNo - 1 = k := by omega
  have hk' : ls[t.lineNo - 1]? = some l₀ := by rw [hk1]; exact hk
  have hklt : k < ls.length := by
    by_contra hcon
    rw [List.getElem?_eq_none (by omega)] at hk
    exact absurd hk (by simp)
  by_cases hst : t.status = lit "done"
  · -- the record is already done: the first call is a no-op
    have hfirst : updateTodoStatus today fs i (lit "done") =
        (fs, UpdRes.noChange i (lit "done")) := by
      unfold updateTodoStatus
      rw [dif_pos ⟨h1, h2⟩]
      simp only [hg]
      rw [if_pos hst]
    have hsecond : updateTodoStatus today fs i (lit "open") =
        (fsWrite fs t.file (ls.set (t.lineNo - 1) (reopenLine l₀)),
         UpdRes.changed i { t with status := lit "open", completed := none }) := by
      unfold updateTodoStatus
      rw [dif_pos ⟨h1, h2⟩]
      simp only [hg]
      rw [if_neg (by rw [hst]; decide)]
      simp only [hread]
      rw [updateFileLines_open hk']
    refine ⟨{ t with status := lit "open", completed := none }, ls,
      ls.set (t.lineNo - 1) (reopenLine l₀), ?_, rfl, rfl, rfl, rfl, rfl,
      hread, ?_, by simp, ?_⟩
    · simp only [hfirst, hsecond]
    · simp only [hfirst, hsecond]
      exact fsRead_fsWrite_self hread
    · intro j hj
      exact List.getElem?_set_ne (by omega)
  · -- first call rewrites the line to its marked-done form
    have hfirst : updateTodoStatus today fs i (lit "done") =
        (fsWrite fs t.file (ls.set (t.lineNo - 1) (markDoneLine today l₀)),
         UpdRes.changed i { t with status := lit "done",
                                   completed := some today }) := by
      unfold updateTodoStatus
      rw [dif_pos ⟨h1, h2⟩]
      simp only [hg]
      rw [if_neg hst]
      simp only [hread]
      rw [updateFileLines_done hk']
    have hpar' : parseTodoLine today t.file (1 + k) l₀ = some t := by
      rw [show 1 + k = t.lineNo by omega]
      exact hpar
    have hF0 := scanLines_set_rel hd ls 1 k l₀ t hk hpar'
    have hF1 : List.Forall₂ (relM t.file (1 + k))
        (scanAll today (fsWrite fs t.file (ls.set k (markDoneLine today l₀))))
        (scanAll today fs) := scanAll_write_rel hnd hread hF0
    have hF2 : List.Forall₂ (relM t.file (1 + k))
        (loadTodos today (fsWrite fs t.file (ls.set k (markDoneLine today l₀))))
        (loadTodos today fs) := sortLe_forall₂ hF1
    obtain ⟨t2, hgt2, hrel⟩ := forall₂_get_right hF2 hg
    have hbr : relC1 t2 t ∧ t2.status = lit "done" := by
      rcases hrel with ⟨_, hcon⟩ | ⟨ha, hb, _⟩
      · exact absurd ⟨rfl, by omega⟩ hcon
      · exact ⟨ha, hb⟩
    obtain ⟨⟨he1, he2, he3, he4, he5, he6⟩, hst2⟩ := hbr
    have h2b : i ≤ (loadTodos today
        (fsWrite fs t.file (ls.set k (markDoneLine today l₀)))).length := by
      rw [hF2.length_eq]
      exact h2
    have hread1 : fsRead (fsWrite fs t.file (ls.set k (markDoneLine today l₀)))
        t2.file = some (ls.set k (markDoneLine today l₀)) := by
      rw [he5]
      exact fsRead_fsWrite_self hread
    have hk2 : (ls.set k (markDoneLine today l₀))[t2.lineNo - 1]? =
        some (markDoneLine today l₀) := by
      rw [he6, hk1]
      rw [List.getElem?_set_eq_of_lt]
      exact hklt
    have hsecond : updateTodoStatus today
        (fsWrite fs t.file (ls.set k (markDoneLine today l₀))) i (lit "open") =
        (fsWrite (fsWrite fs t.file (ls.set k (markDoneLine today l₀))) t2.file
           ((ls.set k (markDoneLine today l₀)).set (t2.lineNo - 1)
             (reopenLine (markDoneLine today l₀))),
         UpdRes.changed i { t2 with status := lit "open",
                                    completed := none }) := by
      unfold updateTodoStatus
      rw [dif_pos ⟨h1, h2b⟩]
      simp only [hgt2]
      rw [if_neg (by rw [hst2]; decide)]
      simp only [hread1]
      rw [updateFileLines_open hk2]
    refine ⟨{ t2 with status := lit "open", completed := none }, ls,
      (ls.set k (markDoneLine today l₀)).set (t2.lineNo - 1)
        (reopenLine (markDoneLine today l₀)), ?_, rfl, rfl, he1, he2, he3,
      hread, ?_, ?_, ?_⟩
    · rw [hk1] at hfirst
      simp only [hfirst, hsecond]
    · rw [hk1] at hfirst
      simp only [hfirst, hsecond]
      have hread1b : fsRead (fsWrite fs t.file
          (ls.set k (markDoneLine today l₀))) t.file =
          some (ls.set k (markDoneLine today l₀)) := by
        rw [he5] at hread1
        exact hread1
      rw [he5]
      exact fsRead_fsWrite_self hread1b
    · rw [List.length_set, List.length_set]
    · intro j hj
      rw [List.getElem?_set_ne (by omega), List.getElem?_set_ne (by omega)]

/-- Concrete single-file corpus used to instantiate the C1 theorem. -/
def c1wFs : FsT :=
  [(lit "notes/2024/03/15-03-2024.md", [lit "# x", lit "- [ ] buy milk"])]

/-- The record at ordinal 1 of `c1wFs` under today = 2024-03-20. -/
def c1wT : TodoEntry :=
  { text := lit "buy milk", tags := [], created := lit "2024-03-15",
    file := lit "notes/2024/03/15-03-2024.md", lineNo := 2,
    status := lit "open", due := none, completed := none }

/-- C1, witness: the roundtrip on a one-todo corpus. -/
theorem c1_done_then_open_roundtrip_witness :
    ((c1wFs.map Prod.fst).Nodup ∧ isDateShape (lit "2024-03-20") = true ∧
      1 ≤ 1 ∧ 1 ≤ (loadTodos (lit "2024-03-20") c1wFs).length ∧
      (loadTodos (lit "2024-03-20") c1wFs)[1 - 1]? = some c1wT) ∧
    (∃ u ls ls2, (updateTodoStatus (lit "2024-03-20")
        (updateTodoStatus (lit "2024-03-20") c1wFs 1 (lit "done")).1 1
        (lit "open")).2 = UpdRes.changed 1 u ∧
      u.status = lit "open" ∧ u.completed = none ∧
      u.text = c1wT.text ∧ u.tags = c1wT.tags ∧ u.due = c1wT.due ∧
      fsRead c1wFs c1wT.file = some ls ∧
      fsRead (updateTodoStatus (lit "2024-03-20")
          (updateTodoStatus (lit "2024-03-20") c1wFs 1 (lit "done")).1 1
          (lit "open")).1 c1wT.file = some ls2 ∧
      ls2.length = ls.length ∧
      ∀ j : Nat, j ≠ c1wT.lineNo - 1 → ls2[j]? = ls[j]?) :=
  ⟨⟨by decide, by decide, by decide, by decide, by decide⟩,
   c1_done_then_open_roundtrip (lit "2024-03-20") c1wFs 1 c1wT (by decide)
     (by decide) (by decide) (by decide) (by decide)⟩
